import Mathlib

/-!
Verification of the Quinoa mesh-partitioner / linear-system-solver core.

This file gives a shallow embedding, in Lean 4, of the algorithms of
`src/Inciter/Partitioner.h` and `src/LinSys/Solver.h`:

* the distributed mesh-node renumbering protocol (query / mask / offset /
  reorder / request / neworder / bounds) of `inciter::Partitioner`,
* the one-shot uniform 1:8 tetrahedron refinement (`Partitioner::refine`),
* the over-decomposition check of `Partitioner::chareNodes`,
* the contribution merging, Dirichlet boundary-condition application,
  low-order solve and re-arming of `tk::Solver`.

Machine integers are modelled as `Nat` (all quantities involved are small
indices and counts, far from any overflow), `tk::real` is modelled as `ℚ`,
C++ `std::set` iteration is modelled by iterating a `Finset` in sorted
order, and `std::map` / `std::unordered_map` values are modelled either as
association lists or as `Finset`-indexed functions, as noted at each
definition.
-/

/-! ## Part 1: the distributed renumbering protocol of `inciter::Partitioner`

A run of the protocol is determined by, per PE `q`,

* `locN q` : the set of global (file) mesh-node ids the chares of PE `q`
  contribute to (member `m_nd`, built by `Partitioner::flatten`), and
* `locE q` : the set of edges refined on PE `q` (member `m_ed`); an edge,
  a canonicalized pair of node ids, is represented by its code
  `Nat.pair a b`.

Both id spaces go through the identical protocol (`Partitioner::mask`
stores node sets in `m_ncommunication` and edge sets in
`m_ecommunication`, `Partitioner::reorder` treats them in sequence with a
single running counter `m_start`), so the communication-map definitions
below are generic in the local-set function `loc`.
-/

/-- Mesh data determining one run of the renumbering protocol: the number
of PEs, and per PE the local node-id set `m_nd` and local edge set `m_ed`
(edges coded via `Nat.pair`). -/
structure RMesh where
  npes : ℕ
  locN : ℕ → Finset ℕ
  locE : ℕ → Finset ℕ

/-- Temporary communication map `m_ncomm` (resp. `m_ecomm`) built by
`Partitioner::mask`: PE `q` stores, for each PE `p < q` (masks from
higher PEs are ignored by the `p < CkMyPe()` guard), the ids of its local
set that `p` reported to also hold (`p` answered `q`'s query with the
members of `q`'s set found in `p`'s set). -/
def ncommAux (loc : ℕ → Finset ℕ) (q p : ℕ) : Finset ℕ :=
  if p < q then loc q ∩ loc p else ∅

/-- Final node communication map `m_ncommunication`: after all masks
arrived, `Partitioner::mask` keeps an id in the entry for `p` only if no
entry iterated earlier already contains it (the `std::none_of` up to `p`).
The temporary node map `m_ncomm` is an ordered `std::map`, so the entries
are iterated ascending and an id survives under its lowest holding PE —
which is what this definition encodes.  The temporary edge map `m_ecomm`
is a `std::unordered_map` iterated in unspecified order; its dedup is
embedded by `dedupAux` below over an explicit iteration order, of which
this definition is exactly the ascending instance (`dedupAux_range_eq`).
Edge instantiations of this definition are used only through
order-invariant quantities: entry-size totals (`nrecvAux`) and membership
in the union of the entries (`ownB`). -/
def ncommunicationAux (loc : ℕ → Finset ℕ) (q p : ℕ) : Finset ℕ :=
  (ncommAux loc q p).filter (fun j => ∀ p2 ∈ Finset.range p, j ∉ ncommAux loc q p2)

/-- The dedup loop of `Partitioner::mask` over an explicit container
iteration order `ord` (the keys of the temporary communication map, in
the order the container yields them): the entry for PE `p` keeps the ids
of `p`'s temporary entry contained in no entry iterated before it; `seen`
accumulates the union of the earlier temporary entries, mirroring the
`std::none_of( m_ecomm.cbegin(), c, ... )` check against the original
temporary entries.  For the ordered node map `ord = List.range q`; for
the unordered edge map `m_ecomm` any enumeration of its keys is a legal
`ord`. -/
def dedupAux (loc : ℕ → Finset ℕ) (q : ℕ) : List ℕ → Finset ℕ → ℕ → Finset ℕ
  | [], _, _ => ∅
  | c :: rest, seen, p =>
      if c = p then ncommAux loc q c \ seen
      else dedupAux loc q rest (seen ∪ ncommAux loc q c) p

/-- The PE to which `Partitioner::reorder` sends the `request` for edge
`e`: the key of the final communication-map entry containing `e` (the
loop `for (e : m_ecommunication) thisProxy[e.first].request(...)`), with
the temporary map iterated in order `ord`; `none` if no entry contains
`e`, i.e. the PE reorders `e` itself. -/
def requestTarget (loc : ℕ → Finset ℕ) (q : ℕ) (ord : List ℕ) (e : ℕ) : Option ℕ :=
  (ord.filter (fun p => decide (e ∈ dedupAux loc q ord ∅ p))).head?

/-- The `ownnode` / `ownedge` lambda of `Partitioner::reorder`: PE `q`
assigns a new id to `j` iff `j` is in none of the final communication-map
entries (all of which are for PEs `p < q`). -/
def ownB (loc : ℕ → Finset ℕ) (q j : ℕ) : Bool :=
  decide (∀ p ∈ Finset.range q, j ∉ ncommunicationAux loc q p)

/-- The set of ids of the local set that PE `q` itself reorders (the ids
picked up by the `if (ownnode(p))` branch of the reorder loop). -/
def ownedAux (loc : ℕ → Finset ℕ) (q : ℕ) : Finset ℕ :=
  (loc q).filter (fun j => ownB loc q j = true)

/-- Number of ids PE `q` will receive rather than assign (`nrecv` resp.
`erecv` in `Partitioner::mask`): total size of the final communication-map
entries. -/
def nrecvAux (loc : ℕ → Finset ℕ) (q : ℕ) : ℕ :=
  ∑ p ∈ Finset.range q, (ncommunicationAux loc q p).card

/-- The count each PE broadcasts from `Partitioner::mask`:
`m_nd.size()-nrecv + m_ed.size()-erecv`, the number of ids (nodes plus
edges) it uniquely assigns new ids for. -/
def uniqueOwned (M : RMesh) (q : ℕ) : ℕ :=
  ((M.locN q).card - nrecvAux M.locN q) + ((M.locE q).card - nrecvAux M.locE q)

/-- The reorder offset accumulated by `Partitioner::offset`: the sum of
the unique-assign counts of all lower PEs (`if (p < CkMyPe()) m_start += u`). -/
def startOf (M : RMesh) (q : ℕ) : ℕ :=
  ∑ p ∈ Finset.range q, uniqueOwned M p

/-- The reorder loop of `Partitioner::reorder`:
`for (auto j : s) if (own j) m[j] = start++;` — iterating a sorted id
list, assigning consecutive new ids to the ids it owns. -/
def assignLoop (own : ℕ → Bool) : ℕ → List ℕ → List (ℕ × ℕ)
  | _, [] => []
  | s, j :: l => if own j then (j, s) :: assignLoop own (s + 1) l else assignLoop own s l

/-- Ascending enumeration of a finite set of naturals: scan `0..max` and
keep the members. This is the iteration order of a C++ `std::set`. -/
def ascList (s : Finset ℕ) : List ℕ :=
  (List.range (s.fold max 0 id + 1)).filter (fun j => decide (j ∈ s))

/-- Iteration order of the `std::set` `m_nd` on PE `q`: ascending. -/
def sortedNodes (M : RMesh) (q : ℕ) : List ℕ :=
  ascList (M.locN q)

/-- Iteration order of the edge set `m_ed` on PE `q` (an unordered
container in the source; iteration order does not affect any property
proved here, a fixed ascending order of the edge codes is used). -/
def sortedEdges (M : RMesh) (q : ℕ) : List ℕ :=
  ascList (M.locE q)

/-- The map `m_newnd` as far as PE `q` itself assigns it: the node part of
the reorder loop, starting the counter at `m_start = startOf`. -/
def newndList (M : RMesh) (q : ℕ) : List (ℕ × ℕ) :=
  assignLoop (ownB M.locN q) (startOf M q) (sortedNodes M q)

/-- The map `m_newed` as far as PE `q` itself assigns it: the edge part of
the reorder loop, continuing the counter after the node part (the counter
has advanced by one per assigned node, i.e. by `(newndList M q).length`). -/
def newedList (M : RMesh) (q : ℕ) : List (ℕ × ℕ) :=
  assignLoop (ownB M.locE q) (startOf M q + (newndList M q).length) (sortedEdges M q)

/-- The smallest PE below `npes` whose local set contains `j` (defaulting
to `npes` if there is none): the candidate assigner of id `j`. -/
def minHolder (npes : ℕ) (loc : ℕ → Finset ℕ) (j : ℕ) : ℕ :=
  (((List.range npes).filter (fun p => decide (j ∈ loc p))).head?).getD npes

/-- The new id that ends up associated to old node id `j` across the whole
protocol: the entry the minimal holder of `j` assigns in its reorder loop. -/
def newIdN (M : RMesh) (j : ℕ) : ℕ :=
  ((newndList M (minHolder M.npes M.locN j)).lookup j).getD 0

/-- The new id that ends up associated to edge `e` across the whole
protocol. -/
def newIdE (M : RMesh) (e : ℕ) : ℕ :=
  ((newedList M (minHolder M.npes M.locE e)).lookup e).getD 0

/-! ### Basic lemmas about the communication maps -/

theorem mem_ncommAux {loc : ℕ → Finset ℕ} {q p j : ℕ} :
    j ∈ ncommAux loc q p ↔ p < q ∧ j ∈ loc q ∧ j ∈ loc p := by
  unfold ncommAux
  split
  · simp_all [Finset.mem_inter]
  · simp_all

theorem mem_ncommunicationAux {loc : ℕ → Finset ℕ} {q p j : ℕ} :
    j ∈ ncommunicationAux loc q p ↔
      p < q ∧ j ∈ loc q ∧ j ∈ loc p ∧ ∀ p2 < p, j ∉ loc p2 := by
  unfold ncommunicationAux
  rw [Finset.mem_filter]
  constructor
  · rintro ⟨hm, hall⟩
    rcases mem_ncommAux.mp hm with ⟨hpq, hq, hp⟩
    refine ⟨hpq, hq, hp, fun p2 hp2 hmem => ?_⟩
    exact hall p2 (Finset.mem_range.mpr hp2)
      (mem_ncommAux.mpr ⟨lt_trans hp2 hpq, hq, hmem⟩)
  · rintro ⟨hpq, hq, hp, hmin⟩
    refine ⟨mem_ncommAux.mpr ⟨hpq, hq, hp⟩, fun p2 hp2 hmem => ?_⟩
    rcases mem_ncommAux.mp hmem with ⟨_, _, hl⟩
    exact hmin p2 (Finset.mem_range.mp hp2) hl

/-- An id lies in at most one final communication-map entry. -/
theorem ncommunicationAux_unique {loc : ℕ → Finset ℕ} {q p p2 j : ℕ}
    (h1 : j ∈ ncommunicationAux loc q p) (h2 : j ∈ ncommunicationAux loc q p2) :
    p = p2 := by
  rcases mem_ncommunicationAux.mp h1 with ⟨_, _, hp, hmin1⟩
  rcases mem_ncommunicationAux.mp h2 with ⟨_, _, hp2, hmin2⟩
  rcases lt_trichotomy p p2 with h | h | h
  · exact absurd hp (hmin2 p h)
  · exact h
  · exact absurd hp2 (hmin1 p2 h)

theorem dedupAux_nil (loc : ℕ → Finset ℕ) (q : ℕ) (seen : Finset ℕ) (p : ℕ) :
    dedupAux loc q [] seen p = ∅ := rfl

theorem dedupAux_cons (loc : ℕ → Finset ℕ) (q c : ℕ) (rest : List ℕ)
    (seen : Finset ℕ) (p : ℕ) :
    dedupAux loc q (c :: rest) seen p
      = if c = p then ncommAux loc q c \ seen
        else dedupAux loc q rest (seen ∪ ncommAux loc q c) p := rfl

/-- Any id kept by the dedup loop in the entry for `p` came from `p`'s
temporary entry, `p` is among the iterated keys, and the id was not seen
before the loop started. -/
theorem dedupAux_mem_sub {loc : ℕ → Finset ℕ} {q : ℕ} :
    ∀ {ord : List ℕ} {seen : Finset ℕ} {p j : ℕ}, j ∈ dedupAux loc q ord seen p →
      p ∈ ord ∧ j ∈ ncommAux loc q p ∧ j ∉ seen := by
  intro ord
  induction ord with
  | nil =>
      intro seen p j h
      rw [dedupAux_nil] at h
      exact absurd h (Finset.not_mem_empty j)
  | cons c rest ih =>
      intro seen p j h
      rw [dedupAux_cons] at h
      by_cases hcp : c = p
      · subst hcp
        rw [if_pos rfl] at h
        rcases Finset.mem_sdiff.mp h with ⟨h1, h2⟩
        exact ⟨List.mem_cons_self c rest, h1, h2⟩
      · rw [if_neg hcp] at h
        rcases ih h with ⟨hp, hn, hs⟩
        exact ⟨List.mem_cons_of_mem c hp, hn,
          fun hj => hs (Finset.mem_union_left _ hj)⟩

/-- The dedup loop keeps each id in at most one entry, whatever the
iteration order of the temporary map. -/
theorem dedupAux_unique {loc : ℕ → Finset ℕ} {q : ℕ} :
    ∀ {ord : List ℕ} {seen : Finset ℕ} {p p2 j : ℕ},
      j ∈ dedupAux loc q ord seen p → j ∈ dedupAux loc q ord seen p2 → p = p2 := by
  intro ord
  induction ord with
  | nil =>
      intro seen p p2 j h _
      rw [dedupAux_nil] at h
      exact absurd h (Finset.not_mem_empty j)
  | cons c rest ih =>
      intro seen p p2 j h1 h2
      rw [dedupAux_cons] at h1 h2
      by_cases hcp : c = p
      · rw [if_pos hcp] at h1
        by_cases hcp2 : c = p2
        · rw [← hcp, ← hcp2]
        · rw [if_neg hcp2] at h2
          rcases dedupAux_mem_sub h2 with ⟨_, _, hs2⟩
          rcases Finset.mem_sdiff.mp h1 with ⟨h1a, _⟩
          exact absurd (Finset.mem_union_right seen h1a) hs2
      · rw [if_neg hcp] at h1
        by_cases hcp2 : c = p2
        · rw [if_pos hcp2] at h2
          rcases dedupAux_mem_sub h1 with ⟨_, _, hs1⟩
          rcases Finset.mem_sdiff.mp h2 with ⟨h2a, _⟩
          exact absurd (Finset.mem_union_right seen h2a) hs1
        · rw [if_neg hcp2] at h2
          exact ih h1 h2

/-- If some iterated temporary entry contains the id and the id was not
seen before the loop started, some final entry keeps it. -/
theorem dedupAux_covers {loc : ℕ → Finset ℕ} {q : ℕ} :
    ∀ {ord : List ℕ} {seen : Finset ℕ} {p0 j : ℕ}, p0 ∈ ord →
      j ∈ ncommAux loc q p0 → j ∉ seen → ∃ p, j ∈ dedupAux loc q ord seen p := by
  intro ord
  induction ord with
  | nil =>
      intro seen p0 j h _ _
      exact absurd h (List.not_mem_nil p0)
  | cons c rest ih =>
      intro seen p0 j hp0 hj hs
      by_cases hjc : j ∈ ncommAux loc q c
      · refine ⟨c, ?_⟩
        rw [dedupAux_cons, if_pos rfl]
        exact Finset.mem_sdiff.mpr ⟨hjc, hs⟩
      · have hp0r : p0 ∈ rest := by
          rcases List.mem_cons.mp hp0 with h | h
          · exact absurd (h ▸ hj) hjc
          · exact h
        have hs2 : j ∉ seen ∪ ncommAux loc q c := by
          intro hmem
          rcases Finset.mem_union.mp hmem with h | h
          · exact hs h
          · exact hjc h
        rcases ih hp0r hj hs2 with ⟨p, hp⟩
        refine ⟨p, ?_⟩
        rw [dedupAux_cons]
        have hcp : c ≠ p := by
          intro hcpe
          rcases dedupAux_mem_sub hp with ⟨_, hn, _⟩
          refine hjc ?_
          rw [hcpe]
          exact hn
        rw [if_neg hcp]
        exact hp

/-- Entry of the dedup loop for `p` when the iteration reaches `p` right
after the keys of `l1`: the temporary entry of `p`, minus everything seen
at loop start and minus all entries iterated before `p`. -/
theorem dedupAux_append {loc : ℕ → Finset ℕ} {q p : ℕ} :
    ∀ (l1 l2 : List ℕ) (seen : Finset ℕ), p ∉ l1 →
      dedupAux loc q (l1 ++ p :: l2) seen p
        = (ncommAux loc q p \ seen).filter
            (fun j => ∀ c ∈ l1, j ∉ ncommAux loc q c) := by
  intro l1
  induction l1 with
  | nil =>
      intro l2 seen _
      rw [List.nil_append, dedupAux_cons, if_pos rfl]
      ext j
      simp
  | cons c l1 ih =>
      intro l2 seen hp
      have hcp : c ≠ p := by
        intro hce
        refine hp ?_
        rw [← hce]
        exact List.mem_cons_self c l1
      have hpl : p ∉ l1 := fun h => hp (List.mem_cons_of_mem c h)
      rw [List.cons_append, dedupAux_cons, if_neg hcp, ih l2 _ hpl]
      ext j
      simp only [Finset.mem_filter, Finset.mem_sdiff, Finset.mem_union,
        List.mem_cons, not_or]
      constructor
      · rintro ⟨⟨hjp, hns, hnc⟩, hall⟩
        refine ⟨⟨hjp, hns⟩, fun x hx => ?_⟩
        rcases hx with hx | hx
        · rw [hx]
          exact hnc
        · exact hall x hx
      · rintro ⟨⟨hjp, hns⟩, hall⟩
        exact ⟨⟨hjp, hns, hall c (Or.inl rfl)⟩, fun x hx => hall x (Or.inr hx)⟩

/-- `List.range q` split at an element `p < q`. -/
theorem range_split {p q : ℕ} (h : p < q) :
    List.range q = List.range p ++ p :: List.range' (p + 1) (q - p - 1) := by
  have e1 : List.range' 0 p ++ List.range' (0 + p) ((q - p - 1) + 1)
      = List.range' 0 (((q - p - 1) + 1) + p) :=
    List.range'_append_1 0 p ((q - p - 1) + 1)
  have e2 : ((q - p - 1) + 1) + p = q := by omega
  have e3 : List.range' (0 + p) ((q - p - 1) + 1)
      = p :: List.range' (p + 1) (q - p - 1) := by
    rw [Nat.zero_add, List.range'_succ]
  rw [List.range_eq_range', List.range_eq_range']
  calc List.range' 0 q = List.range' 0 (((q - p - 1) + 1) + p) := by rw [e2]
    _ = List.range' 0 p ++ List.range' (0 + p) ((q - p - 1) + 1) := e1.symm
    _ = List.range' 0 p ++ (p :: List.range' (p + 1) (q - p - 1)) := by rw [e3]

/-- The ascending-order instance of the dedup loop is exactly
`ncommunicationAux`: iterating the ordered node map `m_ncomm`, an id
survives under its lowest holding PE. -/
theorem dedupAux_range_eq (loc : ℕ → Finset ℕ) (q p : ℕ) :
    dedupAux loc q (List.range q) ∅ p = ncommunicationAux loc q p := by
  by_cases hpq : p < q
  · rw [range_split hpq,
      dedupAux_append (List.range p) _ ∅ (by simp)]
    unfold ncommunicationAux
    ext j
    simp [List.mem_range, Finset.mem_range]
  · have h0 : ncommAux loc q p = ∅ := by
      unfold ncommAux
      rw [if_neg hpq]
    have h1 : ncommunicationAux loc q p = ∅ := by
      unfold ncommunicationAux
      rw [h0]
      rfl
    rw [h1]
    refine Finset.eq_empty_iff_forall_not_mem.mpr (fun j hj => ?_)
    rcases dedupAux_mem_sub hj with ⟨_, hn, _⟩
    rw [h0] at hn
    exact absurd hn (Finset.not_mem_empty j)

/-- PE `q` keeps id `j` for itself iff no strictly lower PE holds it. -/
theorem ownB_iff {loc : ℕ → Finset ℕ} {q j : ℕ} (hj : j ∈ loc q) :
    ownB loc q j = true ↔ ∀ p < q, j ∉ loc p := by
  unfold ownB
  rw [decide_eq_true_iff]
  constructor
  · intro hall
    by_contra hex
    push_neg at hex
    rcases hex with ⟨p, hpq, hp⟩
    have hexists : ∃ p, p < q ∧ j ∈ loc p := ⟨p, hpq, hp⟩
    have hfind := Nat.find_spec hexists
    set p0 := Nat.find hexists with hp0
    have hmem : j ∈ ncommunicationAux loc q p0 := by
      refine mem_ncommunicationAux.mpr ⟨hfind.1, hj, hfind.2, fun p2 hp2 hl => ?_⟩
      exact absurd ⟨lt_trans hp2 hfind.1, hl⟩ (Nat.find_min hexists hp2)
    exact hall p0 (Finset.mem_range.mpr hfind.1) hmem
  · intro hnone p _ hmem
    rcases mem_ncommunicationAux.mp hmem with ⟨hpq, _, hp, _⟩
    exact hnone p hpq hp

theorem mem_ownedAux {loc : ℕ → Finset ℕ} {q j : ℕ} :
    j ∈ ownedAux loc q ↔ j ∈ loc q ∧ ∀ p < q, j ∉ loc p := by
  unfold ownedAux
  rw [Finset.mem_filter]
  constructor
  · rintro ⟨hj, hob⟩
    exact ⟨hj, (ownB_iff hj).mp hob⟩
  · rintro ⟨hj, h⟩
    exact ⟨hj, (ownB_iff hj).mpr h⟩

/-! ### The assignment loop -/

theorem assignLoop_eq_zip (own : ℕ → Bool) (s : ℕ) (l : List ℕ) :
    assignLoop own s l = (l.filter own).zip (List.range' s (l.filter own).length) := by
  induction l generalizing s with
  | nil => simp [assignLoop]
  | cons a l ih =>
    by_cases h : own a
    · simp [assignLoop, h, List.filter_cons, List.range', ih]
    · simp [assignLoop, h, List.filter_cons_of_neg, ih]

theorem assignLoop_map_fst (own : ℕ → Bool) (s : ℕ) (l : List ℕ) :
    (assignLoop own s l).map Prod.fst = l.filter own := by
  rw [assignLoop_eq_zip, List.map_fst_zip]
  simp

theorem assignLoop_map_snd (own : ℕ → Bool) (s : ℕ) (l : List ℕ) :
    (assignLoop own s l).map Prod.snd = List.range' s (l.filter own).length := by
  rw [assignLoop_eq_zip, List.map_snd_zip]
  simp

theorem assignLoop_length (own : ℕ → Bool) (s : ℕ) (l : List ℕ) :
    (assignLoop own s l).length = (l.filter own).length := by
  have h := assignLoop_map_fst own s l
  have := congrArg List.length h
  simpa using this

/-- Looking up an owned member of the iterated list in the produced
assignment map succeeds, with a value in the assigned range. -/
theorem assignLoop_lookup_mem (own : ℕ → Bool) {j : ℕ} :
    ∀ (s : ℕ) (l : List ℕ), j ∈ l → own j = true →
      ∃ v, (assignLoop own s l).lookup j = some v ∧ s ≤ v ∧ v < s + (l.filter own).length := by
  intro s l
  induction l generalizing s with
  | nil => intro h; simp at h
  | cons a l ih =>
    intro hmem ho
    by_cases ha : own a
    · have hlen : ((a :: l).filter own).length = (l.filter own).length + 1 := by
        simp [List.filter_cons, ha]
      rcases List.mem_cons.mp hmem with rfl | htail
      · refine ⟨s, ?_, le_refl s, ?_⟩
        · simp [assignLoop, ha, List.lookup]
        · omega
      · by_cases hja : j = a
        · subst hja
          refine ⟨s, ?_, le_refl s, ?_⟩
          · simp [assignLoop, ha, List.lookup]
          · omega
        · rcases ih (s + 1) htail ho with ⟨v, hv, hs, hlt⟩
          refine ⟨v, ?_, by omega, by omega⟩
          simp only [assignLoop, ha, if_true, List.lookup]
          have : (j == a) = false := beq_false_of_ne hja
          simp [this, hv]
    · have hja : j ≠ a := fun h => by subst h; exact ha ho
      have htail : j ∈ l := by
        rcases List.mem_cons.mp hmem with h | h
        · exact absurd h hja
        · exact h
      have hlen : ((a :: l).filter own).length = (l.filter own).length := by
        rw [List.filter_cons_of_neg ha]
      rcases ih s htail ho with ⟨v, hv, hs, hlt⟩
      refine ⟨v, ?_, hs, by omega⟩
      simp [assignLoop, ha, hv]

/-- The top of the assigned range is attained: some owned element of the
iterated list receives the last counter value. -/
theorem assignLoop_attains_top (own : ℕ → Bool) :
    ∀ (s : ℕ) (l : List ℕ), l.Nodup → (l.filter own) ≠ [] →
      ∃ j, own j = true ∧ j ∈ l ∧
        (assignLoop own s l).lookup j = some (s + (l.filter own).length - 1) := by
  intro s l
  induction l generalizing s with
  | nil => intro _ h; simp at h
  | cons a l ih =>
    intro hnd hne
    have hnd2 := List.nodup_cons.mp hnd
    by_cases ha : own a
    · by_cases hl : l.filter own = []
      · refine ⟨a, ha, List.mem_cons_self a l, ?_⟩
        simp [assignLoop, ha, List.lookup, List.filter_cons, hl]
      · rcases ih (s + 1) hnd2.2 hl with ⟨j, hoj, hjmem, hlook⟩
        have hja : (j == a) = false := by
          refine beq_false_of_ne (fun h => ?_)
          subst h
          exact hnd2.1 hjmem
        refine ⟨j, hoj, List.mem_cons_of_mem a hjmem, ?_⟩
        simp only [assignLoop, ha, if_true, List.lookup, hja, cond_false]
        rw [hlook]
        have hpos : 0 < (l.filter own).length := List.length_pos.mpr hl
        have hlen : ((a :: l).filter own).length = (l.filter own).length + 1 := by
          simp [List.filter_cons, ha]
        congr 1
        omega
    · have hl : (a :: l).filter own = l.filter own := List.filter_cons_of_neg ha
      rw [hl] at hne
      rcases ih s hnd2.2 hne with ⟨j, hoj, hjmem, hlook⟩
      refine ⟨j, hoj, List.mem_cons_of_mem a hjmem, ?_⟩
      simp only [assignLoop, ha, if_false, hl]
      exact hlook

/-! ### The minimal holder -/

theorem head?_append_some {α : Type} {l1 l2 : List α} {a : α} (h : l1.head? = some a) :
    (l1 ++ l2).head? = some a := by
  cases l1 with
  | nil => simp at h
  | cons b t => simpa using h

/-- The head of the filtered ascending range is the least element
satisfying the predicate. -/
theorem head?_filter_range (f : ℕ → Bool) :
    ∀ n : ℕ,
      (∀ m, ((List.range n).filter f).head? = some m →
        f m = true ∧ m < n ∧ ∀ p < m, f p = false) ∧
      (((List.range n).filter f).head? = none → ∀ p < n, f p = false) := by
  intro n
  induction n with
  | zero => simp
  | succ n ih =>
    rw [List.range_succ, List.filter_append]
    rcases h : ((List.range n).filter f).head? with _ | m
    · have hnil : (List.range n).filter f = [] := List.head?_eq_none_iff.mp h
      rw [hnil, List.nil_append]
      by_cases hf : f n
      · constructor
        · intro m hm
          simp [List.filter, hf] at hm
          subst hm
          exact ⟨hf, Nat.lt_succ_self n, fun p hp => ih.2 h p hp⟩
        · intro hnone
          simp [List.filter, hf] at hnone
      · constructor
        · intro m hm
          simp [List.filter, hf] at hm
        · intro _ p hp
          rcases Nat.lt_succ_iff_lt_or_eq.mp hp with h2 | h2
          · exact ih.2 h p h2
          · subst h2
            exact eq_false_of_ne_true hf
    · have happ := @head?_append_some ℕ ((List.range n).filter f) (List.filter f [n]) m h
      constructor
      · intro m2 hm2
        rw [happ] at hm2
        rcases Option.some_inj.mp hm2 with rfl
        rcases (ih.1 m h) with ⟨h1, h2, h3⟩
        exact ⟨h1, Nat.lt_succ_of_lt h2, h3⟩
      · intro hnone
        rw [happ] at hnone
        simp at hnone

theorem minHolder_spec {npes : ℕ} {loc : ℕ → Finset ℕ} {j q0 : ℕ}
    (hq : q0 < npes) (hj : j ∈ loc q0) :
    minHolder npes loc j < npes ∧ j ∈ loc (minHolder npes loc j) ∧
      (∀ p < minHolder npes loc j, j ∉ loc p) ∧ minHolder npes loc j ≤ q0 := by
  set f := fun p => decide (j ∈ loc p) with hf
  rcases h : ((List.range npes).filter f).head? with _ | m
  · exact absurd (of_decide_eq_false ((head?_filter_range f npes).2 h q0 hq))
      (fun hc => hc hj)
  · have hm := (head?_filter_range f npes).1 m h
    have hmin : minHolder npes loc j = m := by
      unfold minHolder
      rw [← hf, h]
      rfl
    rw [hmin]
    have hjm : j ∈ loc m := of_decide_eq_true hm.1
    have hlow : ∀ p < m, j ∉ loc p := fun p hp =>
      of_decide_eq_false (hm.2.2 p hp)
    refine ⟨hm.2.1, hjm, hlow, ?_⟩
    by_contra hgt
    push_neg at hgt
    exact hlow q0 hgt hj

/-- PE `q` reorders `j` itself precisely when it is the minimal holder. -/
theorem ownedAux_iff_minHolder {npes : ℕ} {loc : ℕ → Finset ℕ} {q j : ℕ}
    (hq : q < npes) (hj : j ∈ loc q) :
    j ∈ ownedAux loc q ↔ minHolder npes loc j = q := by
  constructor
  · intro hown
    rcases mem_ownedAux.mp hown with ⟨_, hmin⟩
    rcases minHolder_spec hq hj with ⟨_, hjm, _, hle⟩
    rcases Nat.lt_or_ge (minHolder npes loc j) q with hlt | hge
    · exact absurd hjm (hmin _ hlt)
    · omega
  · intro hm
    rcases minHolder_spec hq hj with ⟨_, _, hlow, _⟩
    rw [hm] at hlow
    exact mem_ownedAux.mpr ⟨hj, hlow⟩

/-! ### Counting the communication map -/

/-- Together the final communication-map entries of PE `q` cover exactly
the ids of its local set that it does not reorder itself. -/
theorem biUnion_ncommunicationAux (loc : ℕ → Finset ℕ) (q : ℕ) :
    (Finset.range q).biUnion (fun p => ncommunicationAux loc q p) =
      (loc q).filter (fun j => ownB loc q j = false) := by
  ext j
  rw [Finset.mem_biUnion, Finset.mem_filter]
  constructor
  · rintro ⟨p, hp, hmem⟩
    rcases mem_ncommunicationAux.mp hmem with ⟨_, hq, _, _⟩
    refine ⟨hq, ?_⟩
    rcases h : ownB loc q j with _ | _
    · rfl
    · exact absurd hmem ((of_decide_eq_true h) p hp)
  · rintro ⟨hq, hfalse⟩
    have := of_decide_eq_false hfalse
    push_neg at this
    rcases this with ⟨p, hp, hmem⟩
    exact ⟨p, hp, hmem⟩

theorem nrecvAux_add_ownedAux_card (loc : ℕ → Finset ℕ) (q : ℕ) :
    nrecvAux loc q + (ownedAux loc q).card = (loc q).card := by
  have hdisj : (Finset.range q : Finset ℕ).toSet.PairwiseDisjoint
      (fun p => ncommunicationAux loc q p) := by
    intro p _ p2 _ hne
    rw [Function.onFun, Finset.disjoint_left]
    intro j h1 h2
    exact hne (ncommunicationAux_unique h1 h2)
  have hcard : nrecvAux loc q =
      ((Finset.range q).biUnion (fun p => ncommunicationAux loc q p)).card := by
    unfold nrecvAux
    rw [Finset.card_biUnion]
    intro p hp p2 hp2 hne
    exact hdisj (Finset.mem_coe.mpr hp) (Finset.mem_coe.mpr hp2) hne
  rw [hcard, biUnion_ncommunicationAux]
  unfold ownedAux
  have h1 : (loc q).filter (fun j => ownB loc q j = true)
      = (loc q).filter (fun j => ¬ ownB loc q j = false) := by
    apply Finset.filter_congr
    intro j _
    cases ownB loc q j <;> simp
  rw [h1]
  exact Finset.filter_card_add_filter_neg_card_eq_card (fun j => ownB loc q j = false)


/-- The broadcast count `m_nd.size()-nrecv + m_ed.size()-erecv` equals the
number of nodes plus edges the PE reorders itself. -/
theorem uniqueOwned_eq (M : RMesh) (q : ℕ) :
    uniqueOwned M q = (ownedAux M.locN q).card + (ownedAux M.locE q).card := by
  have h1 := nrecvAux_add_ownedAux_card M.locN q
  have h2 := nrecvAux_add_ownedAux_card M.locE q
  unfold uniqueOwned
  omega

/-- Claim C1 (amended): for every file-id held by some PE (and, the
definitions being generic in the local-set function, identically for
every refined edge), exactly one PE reorders it, namely the smallest PE
whose local set contains it — this holds independently of the iteration
order of the temporary communication map, because the `ownnode`/`ownedge`
test quantifies over all final entries.  The ascending dedup
(`ncommunicationAux`) is exactly the dedup of the ordered node map
`m_ncomm`, and it keeps each id under the entry of the lowest touching
PE.  Under an arbitrary iteration order — the edge map `m_ecomm` is a
`std::unordered_map` — each id is kept under at most one entry, and that
entry belongs to some lower PE holding the id, not necessarily the
lowest.  Every locally-held id is either reordered locally or kept in
exactly one lower PE's entry, from which it is requested. -/
theorem C1_ownership_partition (npes : ℕ) (loc : ℕ → Finset ℕ) (j q0 : ℕ)
    (hq : q0 < npes) (hj : j ∈ loc q0) :
    (∃! q, q < npes ∧ j ∈ ownedAux loc q) ∧
    (minHolder npes loc j < npes ∧ j ∈ ownedAux loc (minHolder npes loc j) ∧
      ∀ p < minHolder npes loc j, j ∉ loc p) ∧
    (∀ q p, dedupAux loc q (List.range q) ∅ p = ncommunicationAux loc q p) ∧
    (∀ q p, j ∈ ncommunicationAux loc q p → p < q ∧ j ∈ loc p ∧ ∀ p2 < p, j ∉ loc p2) ∧
    (∀ q ord p p2, j ∈ dedupAux loc q ord ∅ p → j ∈ dedupAux loc q ord ∅ p2 → p = p2) ∧
    (∀ q ord p, j ∈ dedupAux loc q ord ∅ p → p ∈ ord ∧ p < q ∧ j ∈ loc p ∧ j ∈ loc q) ∧
    (∀ q ord, q < npes → j ∈ loc q → (∀ x, x < q → j ∈ loc x → x ∈ ord) →
      (ownB loc q j = true ∧ ∀ p, j ∉ dedupAux loc q ord ∅ p) ∨
      (ownB loc q j = false ∧ ∃! p, j ∈ dedupAux loc q ord ∅ p)) := by
  rcases minHolder_spec hq hj with ⟨hmlt, hjm, hlow, _⟩
  have hmown : j ∈ ownedAux loc (minHolder npes loc j) :=
    mem_ownedAux.mpr ⟨hjm, hlow⟩
  refine ⟨⟨minHolder npes loc j, ⟨hmlt, hmown⟩, ?_⟩, ⟨hmlt, hmown, hlow⟩,
    fun q p => dedupAux_range_eq loc q p, ?_, ?_, ?_, ?_⟩
  · rintro q ⟨hqlt, hqown⟩
    exact ((ownedAux_iff_minHolder hqlt (mem_ownedAux.mp hqown).1).mp hqown).symm
  · intro q p h
    rcases mem_ncommunicationAux.mp h with ⟨hpq, _, hp, hmin⟩
    exact ⟨hpq, hp, hmin⟩
  · intro q ord p p2 h1 h2
    exact dedupAux_unique h1 h2
  · intro q ord p h
    rcases dedupAux_mem_sub h with ⟨hpo, hn, _⟩
    rcases mem_ncommAux.mp hn with ⟨hpq, hjq, hjp⟩
    exact ⟨hpo, hpq, hjp, hjq⟩
  · intro q ord hqlt hjq hcov
    rcases h : ownB loc q j with _ | _
    · right
      have hne := of_decide_eq_false h
      push_neg at hne
      rcases hne with ⟨p, hp, hmem⟩
      rcases mem_ncommunicationAux.mp hmem with ⟨hpq, _, hjp, _⟩
      rcases dedupAux_covers (hcov p hpq hjp)
          (mem_ncommAux.mpr ⟨hpq, hjq, hjp⟩) (Finset.not_mem_empty j) with ⟨p2, hp2⟩
      exact ⟨rfl, p2, hp2, fun p3 h3 => dedupAux_unique h3 hp2⟩
    · left
      refine ⟨rfl, fun p hmem => ?_⟩
      rcases dedupAux_mem_sub hmem with ⟨_, hn, _⟩
      rcases mem_ncommAux.mp hn with ⟨hpq, _, hjp⟩
      exact (ownB_iff hjq).mp h p hpq hjp

/-- Concrete two-PE configuration used by witnesses: node id 5 is shared,
PE 0 also holds 3, PE 1 also holds 7. -/
def locC1 : ℕ → Finset ℕ
  | 0 => {3, 5}
  | 1 => {5, 7}
  | _ => ∅

/-- Witness for C1: the ownership partition theorem instantiated at the
shared node id 5 of the concrete two-PE configuration. -/
theorem C1_ownership_partition_witness :
    (0 < 2 ∧ 5 ∈ locC1 0) ∧
    ((∃! q, q < 2 ∧ 5 ∈ ownedAux locC1 q) ∧
    (minHolder 2 locC1 5 < 2 ∧ 5 ∈ ownedAux locC1 (minHolder 2 locC1 5) ∧
      ∀ p < minHolder 2 locC1 5, 5 ∉ locC1 p) ∧
    (∀ q p, dedupAux locC1 q (List.range q) ∅ p = ncommunicationAux locC1 q p) ∧
    (∀ q p, 5 ∈ ncommunicationAux locC1 q p → p < q ∧ 5 ∈ locC1 p ∧ ∀ p2 < p, 5 ∉ locC1 p2) ∧
    (∀ q ord p p2, 5 ∈ dedupAux locC1 q ord ∅ p → 5 ∈ dedupAux locC1 q ord ∅ p2 → p = p2) ∧
    (∀ q ord p, 5 ∈ dedupAux locC1 q ord ∅ p → p ∈ ord ∧ p < q ∧ 5 ∈ locC1 p ∧ 5 ∈ locC1 q) ∧
    (∀ q ord, q < 2 → 5 ∈ locC1 q → (∀ x, x < q → 5 ∈ locC1 x → x ∈ ord) →
      (ownB locC1 q 5 = true ∧ ∀ p, 5 ∉ dedupAux locC1 q ord ∅ p) ∨
      (ownB locC1 q 5 = false ∧ ∃! p, 5 ∈ dedupAux locC1 q ord ∅ p))) :=
  ⟨⟨by decide, by decide⟩, C1_ownership_partition 2 locC1 5 0 (by decide) (by decide)⟩

/-- Three-PE configuration refuting the lowest-PE form of the final edge
communication map: the code of the shared edge 1-2 is held by all three
PEs. -/
def locC1e : ℕ → Finset ℕ
  | 0 => {Nat.pair 1 2}
  | 1 => {Nat.pair 1 2}
  | 2 => {Nat.pair 1 2}
  | _ => ∅

/-- Counterexample to claim C1 as stated: the claim extends "each id
appears in the final communication map under at most the lowest touching
PE" to refined edges, but the temporary edge map `m_ecomm` is a
`std::unordered_map` (Partitioner.h:681) whose iteration order is
unspecified.  Iterated in the legal order `[1, 0]` on PE 2, the dedup of
`Partitioner::mask` keeps the shared edge 1-2 under PE 1's entry and not
under PE 0's, although the lowest PE holding the edge is PE 0. -/
theorem C1_counterexample :
    Nat.pair 1 2 ∈ dedupAux locC1e 2 [1, 0] ∅ 1 ∧
    Nat.pair 1 2 ∉ dedupAux locC1e 2 [1, 0] ∅ 0 ∧
    minHolder 3 locC1e (Nat.pair 1 2) = 0 := by decide

/-! ### The set of new ids each PE assigns -/

theorem mem_ascList {s : Finset ℕ} {j : ℕ} : j ∈ ascList s ↔ j ∈ s := by
  unfold ascList
  rw [List.mem_filter]
  constructor
  · rintro ⟨_, h⟩
    exact of_decide_eq_true h
  · intro h
    refine ⟨List.mem_range.mpr ?_, decide_eq_true h⟩
    have : j ≤ s.fold max 0 id := (Finset.le_fold_max j).mpr (Or.inr ⟨j, h, le_refl j⟩)
    omega

theorem ascList_nodup (s : Finset ℕ) : (ascList s).Nodup :=
  (List.nodup_range _).filter _

theorem filter_sort_length (s : Finset ℕ) (f : ℕ → Bool) :
    ((ascList s).filter f).length = (s.filter (fun j => f j = true)).card := by
  have hnd : ((ascList s).filter f).Nodup := (ascList_nodup s).filter f
  rw [← List.toFinset_card_of_nodup hnd]
  congr 1
  ext j
  simp [List.mem_toFinset, List.mem_filter, mem_ascList, Finset.mem_filter]

theorem range'_toFinset (s n : ℕ) : (List.range' s n).toFinset = Finset.Ico s (s + n) := by
  ext m
  simp [List.mem_toFinset, List.mem_range'_1, Finset.mem_Ico]

theorem newndList_snd (M : RMesh) (q : ℕ) :
    (newndList M q).map Prod.snd =
      List.range' (startOf M q) ((ownedAux M.locN q).card) := by
  unfold newndList sortedNodes
  rw [assignLoop_map_snd, filter_sort_length]
  rfl

theorem newndList_length (M : RMesh) (q : ℕ) :
    (newndList M q).length = (ownedAux M.locN q).card := by
  have h := congrArg List.length (newndList_snd M q)
  simpa using h

theorem newedList_snd (M : RMesh) (q : ℕ) :
    (newedList M q).map Prod.snd =
      List.range' (startOf M q + (ownedAux M.locN q).card) ((ownedAux M.locE q).card) := by
  unfold newedList sortedEdges
  rw [assignLoop_map_snd, filter_sort_length, newndList_length]
  rfl

/-- The set of new ids PE `q` assigns in its reorder loop: node ids first,
then edge-node ids. -/
def assignedIds (M : RMesh) (q : ℕ) : Finset ℕ :=
  ((newndList M q).map Prod.snd).toFinset ∪ ((newedList M q).map Prod.snd).toFinset

/-- Each PE assigns exactly the contiguous block of `uniqueOwned` new ids
starting at its offset. -/
theorem assignedIds_eq (M : RMesh) (q : ℕ) :
    assignedIds M q = Finset.Ico (startOf M q) (startOf M q + uniqueOwned M q) := by
  unfold assignedIds
  rw [newndList_snd, newedList_snd, range'_toFinset, range'_toFinset,
    Finset.Ico_union_Ico_eq_Ico (by omega)
      (by have := uniqueOwned_eq M q; omega)]
  congr 1
  have := uniqueOwned_eq M q
  omega

theorem startOf_succ (M : RMesh) (q : ℕ) :
    startOf M (q + 1) = startOf M q + uniqueOwned M q := by
  unfold startOf
  rw [Finset.sum_range_succ]

theorem startOf_mono (M : RMesh) {p q : ℕ} (h : p ≤ q) :
    startOf M p ≤ startOf M q := by
  unfold startOf
  exact Finset.sum_le_sum_of_subset (Finset.range_subset.mpr h)

/-! ### The row bounds computed by `Partitioner::bounds` -/

/-- Keys of the `m_chnodemap` maps on PE `q`: the new ids of all (old)
node ids the chares of PE `q` contribute to (`Partitioner::reordered`
fills `m_chnodemap` with an entry keyed by the new id of every
connectivity node, looked up in the completed `m_newnd`). -/
def touchedN (M : RMesh) (q : ℕ) : Finset ℕ :=
  (M.locN q).image (newIdN M)

/-- Values of the `m_chedgenodes` maps on PE `q` after
`Partitioner::reordered` replaced each by its entry in the completed
`m_newed`: the new ids of all edges the chares of PE `q` refined. -/
def touchedE (M : RMesh) (q : ℕ) : Finset ℕ :=
  (M.locE q).image (newIdE M)

/-- The upper bound `m_upper` computed by `Partitioner::bounds`: starting
from 0, take the maximum over the `m_chnodemap` keys, then over the
`m_chedgenodes` values. -/
def upperComputed (M : RMesh) (q : ℕ) : ℕ :=
  (touchedE M q).fold max ((touchedN M q).fold max 0 id) id

/-- The final `m_upper` of PE `q`: `Partitioner::bounds` increments the
computed maximum by one on the last PE only (to make it exclusive for the
solver). -/
def upperB (M : RMesh) (q : ℕ) : ℕ :=
  if q = M.npes - 1 then upperComputed M q + 1 else upperComputed M q

/-- The `m_lower` of PE `q`: 0 on PE 0 (`bounds` calls `lower(0)` there);
every other PE receives the previous PE's `m_upper` via
`Partitioner::lower`. -/
def lowerB (M : RMesh) : ℕ → ℕ
  | 0 => 0
  | q + 1 => upperB M q

/-- Total number of new ids assigned across all PEs. -/
def nnew (M : RMesh) : ℕ :=
  ∑ q ∈ Finset.range M.npes, uniqueOwned M q

/-! ### Locating the computed bounds -/

theorem newIdN_lookup {M : RMesh} {q j : ℕ} (hj : j ∈ ownedAux M.locN q) :
    ∃ v, (newndList M q).lookup j = some v ∧
      startOf M q ≤ v ∧ v < startOf M q + (ownedAux M.locN q).card := by
  rcases Finset.mem_filter.mp hj with ⟨hmem, hown⟩
  rcases assignLoop_lookup_mem (ownB M.locN q) (startOf M q) (sortedNodes M q)
      (mem_ascList.mpr hmem) hown with ⟨v, hv, h1, h2⟩
  refine ⟨v, hv, h1, ?_⟩
  have hlen : ((sortedNodes M q).filter (ownB M.locN q)).length
      = (ownedAux M.locN q).card := filter_sort_length (M.locN q) (ownB M.locN q)
  omega

theorem newIdE_lookup {M : RMesh} {q e : ℕ} (he : e ∈ ownedAux M.locE q) :
    ∃ v, (newedList M q).lookup e = some v ∧
      startOf M q + (ownedAux M.locN q).card ≤ v ∧
      v < startOf M q + (ownedAux M.locN q).card + (ownedAux M.locE q).card := by
  rcases Finset.mem_filter.mp he with ⟨hmem, hown⟩
  rcases assignLoop_lookup_mem (ownB M.locE q) (startOf M q + (newndList M q).length)
      (sortedEdges M q) (mem_ascList.mpr hmem) hown with ⟨v, hv, h1, h2⟩
  have hlen : ((sortedEdges M q).filter (ownB M.locE q)).length
      = (ownedAux M.locE q).card := filter_sort_length (M.locE q) (ownB M.locE q)
  have hlnn := newndList_length M q
  exact ⟨v, hv, by omega, by omega⟩

/-- Every new node id a PE touches is below the end of its own assigned
block (ids it assigned itself are in the block, received ids are below
it). -/
theorem newIdN_lt {M : RMesh} {q j : ℕ} (hq : q < M.npes) (hj : j ∈ M.locN q) :
    newIdN M j < startOf M q + uniqueOwned M q := by
  rcases minHolder_spec hq hj with ⟨hmlt, hjm, hlow, hle⟩
  have hown : j ∈ ownedAux M.locN (minHolder M.npes M.locN j) :=
    mem_ownedAux.mpr ⟨hjm, hlow⟩
  rcases newIdN_lookup hown with ⟨v, hv, h1, h2⟩
  have hid : newIdN M j = v := by
    unfold newIdN
    rw [hv]
    rfl
  have huo := uniqueOwned_eq M (minHolder M.npes M.locN j)
  have hchain : startOf M (minHolder M.npes M.locN j + 1) ≤ startOf M (q + 1) :=
    startOf_mono M (by omega)
  have hs1 := startOf_succ M (minHolder M.npes M.locN j)
  have hs2 := startOf_succ M q
  omega

theorem newIdE_lt {M : RMesh} {q e : ℕ} (hq : q < M.npes) (he : e ∈ M.locE q) :
    newIdE M e < startOf M q + uniqueOwned M q := by
  rcases minHolder_spec hq he with ⟨hmlt, hem, hlow, hle⟩
  have hown : e ∈ ownedAux M.locE (minHolder M.npes M.locE e) :=
    mem_ownedAux.mpr ⟨hem, hlow⟩
  rcases newIdE_lookup hown with ⟨v, hv, h1, h2⟩
  have hid : newIdE M e = v := by
    unfold newIdE
    rw [hv]
    rfl
  have huo := uniqueOwned_eq M (minHolder M.npes M.locE e)
  have hchain : startOf M (minHolder M.npes M.locE e + 1) ≤ startOf M (q + 1) :=
    startOf_mono M (by omega)
  have hs1 := startOf_succ M (minHolder M.npes M.locE e)
  have hs2 := startOf_succ M q
  omega

/-- The last id of a PE's assigned block is touched by that PE (the new
id of the last owned node or edge of its reorder loop). -/
theorem top_attained {M : RMesh} {q : ℕ} (hq : q < M.npes)
    (h1 : 1 ≤ uniqueOwned M q) :
    startOf M q + uniqueOwned M q - 1 ∈ touchedN M q ∪ touchedE M q := by
  have huo := uniqueOwned_eq M q
  have hlenN : ((sortedNodes M q).filter (ownB M.locN q)).length
      = (ownedAux M.locN q).card := filter_sort_length (M.locN q) (ownB M.locN q)
  have hlenE : ((sortedEdges M q).filter (ownB M.locE q)).length
      = (ownedAux M.locE q).card := filter_sort_length (M.locE q) (ownB M.locE q)
  by_cases hE : (ownedAux M.locE q).card = 0
  · have hN : 1 ≤ (ownedAux M.locN q).card := by omega
    have hne : (sortedNodes M q).filter (ownB M.locN q) ≠ [] := by
      intro hc
      rw [hc] at hlenN
      simp at hlenN
      omega
    rcases assignLoop_attains_top (ownB M.locN q) (startOf M q) (sortedNodes M q)
        (ascList_nodup _) hne with ⟨j, hoj, hjmem, hlook⟩
    have hjloc : j ∈ M.locN q := mem_ascList.mp hjmem
    have hjown : j ∈ ownedAux M.locN q := Finset.mem_filter.mpr ⟨hjloc, hoj⟩
    have hmq : minHolder M.npes M.locN q = q ∨ True := Or.inr trivial
    have hmh : minHolder M.npes M.locN j = q := (ownedAux_iff_minHolder hq hjloc).mp hjown
    have hid : newIdN M j = startOf M q + uniqueOwned M q - 1 := by
      unfold newIdN
      rw [hmh]
      unfold newndList
      rw [hlook]
      simp only [Option.getD_some]
      omega
    exact Finset.mem_union_left _ (Finset.mem_image.mpr ⟨j, hjloc, hid⟩)
  · have hne : (sortedEdges M q).filter (ownB M.locE q) ≠ [] := by
      intro hc
      rw [hc] at hlenE
      simp at hlenE
      omega
    rcases assignLoop_attains_top (ownB M.locE q)
        (startOf M q + (newndList M q).length) (sortedEdges M q)
        (ascList_nodup _) hne with ⟨e, hoe, hemem, hlook⟩
    have heloc : e ∈ M.locE q := mem_ascList.mp hemem
    have heown : e ∈ ownedAux M.locE q := Finset.mem_filter.mpr ⟨heloc, hoe⟩
    have hmh : minHolder M.npes M.locE e = q := (ownedAux_iff_minHolder hq heloc).mp heown
    have hlnn := newndList_length M q
    have hid : newIdE M e = startOf M q + uniqueOwned M q - 1 := by
      unfold newIdE
      rw [hmh]
      unfold newedList
      rw [hlook]
      simp only [Option.getD_some]
      omega
    exact Finset.mem_union_right _ (Finset.mem_image.mpr ⟨e, heloc, hid⟩)

/-- The `m_upper` computed by `Partitioner::bounds` is the inclusive top
of the PE's own assigned block. -/
theorem upperComputed_eq {M : RMesh} {q : ℕ} (hq : q < M.npes)
    (h1 : 1 ≤ uniqueOwned M q) :
    upperComputed M q = startOf M q + uniqueOwned M q - 1 := by
  apply le_antisymm
  · unfold upperComputed
    rw [Finset.fold_max_le]
    refine ⟨?_, ?_⟩
    · rw [Finset.fold_max_le]
      refine ⟨by omega, ?_⟩
      intro x hx
      simp only [id_eq]
      rcases Finset.mem_image.mp hx with ⟨j, hj, rfl⟩
      have := newIdN_lt hq hj
      omega
    · intro x hx
      simp only [id_eq]
      rcases Finset.mem_image.mp hx with ⟨e, he, rfl⟩
      have := newIdE_lt hq he
      omega
  · have hmem := top_attained hq h1
    unfold upperComputed
    rw [Finset.le_fold_max]
    rcases Finset.mem_union.mp hmem with hN | hE
    · left
      rw [Finset.le_fold_max]
      exact Or.inr ⟨_, hN, le_refl _⟩
    · exact Or.inr ⟨_, hE, le_refl _⟩

theorem upperB_eq {M : RMesh} {q : ℕ} (hq : q < M.npes)
    (h1 : ∀ p < M.npes, 1 ≤ uniqueOwned M p) :
    upperB M q = if q = M.npes - 1 then startOf M q + uniqueOwned M q
      else startOf M q + uniqueOwned M q - 1 := by
  unfold upperB
  rcases eq_or_ne q (M.npes - 1) with h | h
  · rw [if_pos h, if_pos h, upperComputed_eq hq (h1 q hq)]
    have := h1 q hq
    omega
  · rw [if_neg h, if_neg h, upperComputed_eq hq (h1 q hq)]

theorem lowerB_pos_eq {M : RMesh} {q : ℕ} (hq : q < M.npes) (hpos : 0 < q)
    (h1 : ∀ p < M.npes, 1 ≤ uniqueOwned M p) :
    lowerB M q = startOf M q - 1 := by
  obtain ⟨q0, rfl⟩ : ∃ q0, q = q0 + 1 := ⟨q - 1, by omega⟩
  show upperB M q0 = startOf M (q0 + 1) - 1
  rw [upperB_eq (by omega) h1]
  have hne : q0 ≠ M.npes - 1 := by omega
  rw [if_neg hne, startOf_succ]

theorem nnew_eq_startOf (M : RMesh) : nnew M = startOf M M.npes := rfl

/-! ### Claims C3 and C2 -/

/-- Claim C3, amended: the set of new ids PE `q` assigns (counter over
owned nodes, then owned edges) is the contiguous block
`[startOf q, startOf q + uniqueOwned q)`; the range reported to the
solver is shifted down by one: `lower q = startOf q - 1` on every PE but
the first (`lower 0 = 0`) and `upper q = startOf q + uniqueOwned q - 1`
on every PE but the last (where `upper` is `nnew`), so the reported range
equals the assigned block only on a single PE. -/
theorem C3_assigned_interval (M : RMesh) (q : ℕ) (hq : q < M.npes)
    (h1 : ∀ p < M.npes, 1 ≤ uniqueOwned M p) :
    assignedIds M q = Finset.Ico (startOf M q) (startOf M q + uniqueOwned M q) ∧
    lowerB M 0 = 0 ∧
    (0 < q → lowerB M q = startOf M q - 1) ∧
    (q < M.npes - 1 → upperB M q = startOf M q + uniqueOwned M q - 1) ∧
    (q = M.npes - 1 → upperB M q = nnew M) := by
  refine ⟨assignedIds_eq M q, rfl, ?_, ?_, ?_⟩
  · intro hpos
    exact lowerB_pos_eq hq hpos h1
  · intro hlt
    rw [upperB_eq hq h1, if_neg (by omega)]
  · intro heq
    rw [upperB_eq hq h1, if_pos heq, nnew_eq_startOf, ← startOf_succ]
    congr 1
    omega

/-- Concrete two-PE mesh on which claim C3 as stated fails: PE 0 holds
nodes 10, 11, 12, PE 1 holds 12 and 20 (node 12 shared), no refined
edges. -/
def locC3 : ℕ → Finset ℕ
  | 0 => {10, 11, 12}
  | 1 => {12, 20}
  | _ => ∅

/-- The concrete two-PE mesh as an `RMesh`. -/
def MC3 : RMesh := ⟨2, locC3, fun _ => ∅⟩

/-- Claim C3 as stated is false on the code: on the concrete two-PE mesh,
PE 0 assigns new ids 0, 1 and 2, but reports the range `[0, 2)` to the
solver (its `m_upper` is the inclusive largest assigned id 2, not
incremented because PE 0 is not the last PE). -/
theorem C3_counterexample :
    assignedIds MC3 0 ≠ Finset.Ico (lowerB MC3 0) (upperB MC3 0) := by decide

/-- Witness for the amended claim C3 at the concrete two-PE mesh. -/
theorem C3_assigned_interval_witness :
    (0 < MC3.npes ∧ ∀ p < MC3.npes, 1 ≤ uniqueOwned MC3 p) ∧
    (assignedIds MC3 0 = Finset.Ico (startOf MC3 0) (startOf MC3 0 + uniqueOwned MC3 0) ∧
    lowerB MC3 0 = 0 ∧
    (0 < 0 → lowerB MC3 0 = startOf MC3 0 - 1) ∧
    (0 < MC3.npes - 1 → upperB MC3 0 = startOf MC3 0 + uniqueOwned MC3 0 - 1) ∧
    (0 = MC3.npes - 1 → upperB MC3 0 = nnew MC3)) :=
  ⟨⟨by decide, by decide⟩, C3_assigned_interval MC3 0 (by decide) (by decide)⟩

theorem upperB_mono_succ {M : RMesh} {q : ℕ} (h : q + 1 < M.npes)
    (h1 : ∀ p < M.npes, 1 ≤ uniqueOwned M p) :
    upperB M q ≤ upperB M (q + 1) := by
  rw [upperB_eq (by omega) h1, if_neg (by omega), upperB_eq (by omega) h1]
  have hs := startOf_succ M q
  split
  · omega
  · omega

theorem lowerB_le_upperB {M : RMesh} {q : ℕ} (hq : q < M.npes)
    (h1 : ∀ p < M.npes, 1 ≤ uniqueOwned M p) :
    lowerB M q ≤ upperB M q := by
  rw [upperB_eq hq h1]
  rcases Nat.eq_zero_or_pos q with rfl | hpos
  · show 0 ≤ _
    omega
  · rw [lowerB_pos_eq hq hpos h1]
    split <;> omega

/-- The union of the first `k` ranges is an initial segment ending at the
`k`-th upper bound. -/
theorem biUnion_ranges (M : RMesh) (h1 : ∀ p < M.npes, 1 ≤ uniqueOwned M p) :
    ∀ k, 0 < k → k ≤ M.npes →
      (Finset.range k).biUnion (fun q => Finset.Ico (lowerB M q) (upperB M q)) =
        Finset.Ico 0 (upperB M (k - 1)) := by
  intro k
  induction k with
  | zero => omega
  | succ k ih =>
    intro _ hk
    rcases Nat.eq_zero_or_pos k with rfl | hkpos
    · simp [Finset.range_one]
      rw [Finset.range_eq_Ico]
      rfl
    · rw [Finset.range_succ, Finset.biUnion_insert, ih hkpos (by omega)]
      have hlow : lowerB M k = upperB M (k - 1) := by
        obtain ⟨k0, rfl⟩ : ∃ k0, k = k0 + 1 := ⟨k - 1, by omega⟩
        rfl
      have hmono : upperB M (k - 1) ≤ upperB M k := by
        obtain ⟨k0, rfl⟩ : ∃ k0, k = k0 + 1 := ⟨k - 1, by omega⟩
        simpa using upperB_mono_succ (by omega) h1
      rw [hlow, Finset.union_comm, Finset.Ico_union_Ico_eq_Ico (Nat.zero_le _) hmono]
      congr 1

/-- Claim C2: the per-PE row ranges `[lower q, upper q)` have
`lower 0 = 0`, each PE's upper bound is the next PE's lower bound, only
the last PE's upper bound is the one incremented to be exclusive (it
equals the total count of new ids), and the ranges are pairwise disjoint
with union exactly `[0, nnew)`. Hypotheses: at least one PE, and every PE
assigns at least one id. -/
theorem C2_range_partition (M : RMesh) (h0 : 0 < M.npes)
    (h1 : ∀ p < M.npes, 1 ≤ uniqueOwned M p) :
    lowerB M 0 = 0 ∧
    (∀ q, q + 1 < M.npes → lowerB M (q + 1) = upperB M q) ∧
    upperB M (M.npes - 1) = upperComputed M (M.npes - 1) + 1 ∧
    upperB M (M.npes - 1) = nnew M ∧
    (∀ q, q < M.npes - 1 → upperB M q = upperComputed M q) ∧
    (∀ q1 q2, q1 < q2 → q2 < M.npes →
      Disjoint (Finset.Ico (lowerB M q1) (upperB M q1))
        (Finset.Ico (lowerB M q2) (upperB M q2))) ∧
    (Finset.range M.npes).biUnion
        (fun q => Finset.Ico (lowerB M q) (upperB M q)) = Finset.range (nnew M) := by
  have huplast : upperB M (M.npes - 1) = nnew M := by
    rw [upperB_eq (by omega) h1, if_pos rfl, nnew_eq_startOf, ← startOf_succ]
    congr 1
    omega
  refine ⟨rfl, fun q _ => rfl, ?_, huplast, ?_, ?_, ?_⟩
  · unfold upperB
    rw [if_pos rfl]
  · intro q hlt
    unfold upperB
    rw [if_neg (by omega)]
  · intro q1 q2 hq12 hq2
    have hub : upperB M q1 ≤ lowerB M q2 := by
      rw [upperB_eq (by omega) h1, if_neg (by omega),
        lowerB_pos_eq hq2 (by omega) h1]
      have hs := startOf_succ M q1
      have hmono : startOf M (q1 + 1) ≤ startOf M q2 := startOf_mono M (by omega)
      omega
    rw [Finset.disjoint_left]
    intro x hx1 hx2
    rw [Finset.mem_Ico] at hx1 hx2
    omega
  · rw [biUnion_ranges M h1 M.npes h0 (le_refl _), huplast, Finset.range_eq_Ico]

/-- Concrete two-PE mesh for the C2 witness: same nodes as the C3
counterexample plus one refined edge on each PE (the edge 10-11, code
`Nat.pair 10 11`, refined on PE 0 only; the edge 12-20 on PE 1 only). -/
def MC2 : RMesh :=
  ⟨2, locC3, fun q => if q = 0 then {Nat.pair 10 11} else if q = 1 then {Nat.pair 12 20} else ∅⟩

/-- Witness for C2 at the concrete two-PE mesh. -/
theorem C2_range_partition_witness :
    (0 < MC2.npes ∧ ∀ p < MC2.npes, 1 ≤ uniqueOwned MC2 p) ∧
    (lowerB MC2 0 = 0 ∧
    (∀ q, q + 1 < MC2.npes → lowerB MC2 (q + 1) = upperB MC2 q) ∧
    upperB MC2 (MC2.npes - 1) = upperComputed MC2 (MC2.npes - 1) + 1 ∧
    upperB MC2 (MC2.npes - 1) = nnew MC2 ∧
    (∀ q, q < MC2.npes - 1 → upperB MC2 q = upperComputed MC2 q) ∧
    (∀ q1 q2, q1 < q2 → q2 < MC2.npes →
      Disjoint (Finset.Ico (lowerB MC2 q1) (upperB MC2 q1))
        (Finset.Ico (lowerB MC2 q2) (upperB MC2 q2))) ∧
    (Finset.range MC2.npes).biUnion
        (fun q => Finset.Ico (lowerB MC2 q) (upperB MC2 q)) = Finset.range (nnew MC2)) :=
  ⟨⟨by decide, by decide⟩, C2_range_partition MC2 (by decide) (by decide)⟩

/-! ### Claim C8: consistency of edge-node ids across PEs -/

/-- Node sets of the three-PE configuration on which the edge request is
misrouted: nodes 1 and 2 lie on a face shared by all three PEs. -/
def locNC8 : ℕ → Finset ℕ
  | 0 => {0, 1, 2, 3}
  | 1 => {1, 2, 3, 4}
  | 2 => {1, 2, 4, 5}
  | _ => ∅

/-- Edge sets of the three-PE configuration: the shared edge 1-2 is
refined on all three PEs. -/
def locEC8 : ℕ → Finset ℕ
  | 0 => {Nat.pair 1 2}
  | 1 => {Nat.pair 1 2}
  | 2 => {Nat.pair 1 2}
  | _ => ∅

/-- The concrete three-PE shared-edge mesh. -/
def MC8 : RMesh := ⟨3, locNC8, locEC8⟩

/-- Claim C8 (code bug): the claimed cross-PE consistency of edge-node
ids relies on every non-owner requesting the id from the edge's owner,
the lowest PE holding the edge, but the temporary edge communication map
`m_ecomm` is a `std::unordered_map` (Partitioner.h:681) — unlike the node
map `m_ncomm`, an ordered `std::map`, which the source's own comment
(Partitioner.h:492-498) says is required by the dedup that keeps an id
under the lowest holding PE.  On the three-PE mesh sharing edge 1-2, with
`m_ecomm` on PE 2 iterated in the legal order `[1, 0]`,
`Partitioner::reorder` sends PE 2's request for the edge to PE 1 (first
conjunct), which is not the owner: the lowest holder is PE 0 (second and
third conjuncts).  PE 1 does not assign the edge in its own reorder loop,
so once its own reordering completes its `m_newed` has no entry for the
edge (fourth conjunct), and the `tk::cref_find( m_newed, e )` performed
by `Partitioner::prepare` to serve PE 2's request finds nothing — an
assertion failure in debug, undefined behaviour in release — unless
PE 1's own inbound `neworder` reply from PE 0 happens to have arrived
first.  The owner PE 0 does assign the edge (fifth conjunct); under an
ascending iteration — what the ordered node map guarantees — PE 2's
request would reach the owner (sixth conjunct), and PE 1 itself requests
the edge from PE 0 (seventh conjunct). -/
theorem C8_edge_request_misroute :
    requestTarget MC8.locE 2 [1, 0] (Nat.pair 1 2) = some 1 ∧
    minHolder MC8.npes MC8.locE (Nat.pair 1 2) = 0 ∧
    (1 : ℕ) ≠ minHolder MC8.npes MC8.locE (Nat.pair 1 2) ∧
    (newedList MC8 1).lookup (Nat.pair 1 2) = none ∧
    (newedList MC8 0).lookup (Nat.pair 1 2) = some 4 ∧
    requestTarget MC8.locE 2 (List.range 2) (Nat.pair 1 2) = some 0 ∧
    requestTarget MC8.locE 1 [0] (Nat.pair 1 2) = some 0 := by decide

/-! ## Part 2: uniform 1:8 refinement (`Partitioner::refine`)

The refinement pass is determined by the tetrahedron connectivity
`m_tetinpoel` (four node ids per element), the coordinate array `m_coord`
(modelled as one list of coordinate triples) and the total original node
count `nnode` read from the mesh-file header, at which the provisional
edge-node id counter starts.
-/

/-- The four nodes of element `e` of the connectivity. -/
def elemNodes4 (conn : List ℕ) (e : ℕ) : List ℕ :=
  [conn.getD (4 * e) 0, conn.getD (4 * e + 1) 0,
   conn.getD (4 * e + 2) 0, conn.getD (4 * e + 3) 0]

/-- The node pairs `(p, q)` with `p < q` of one element: the pairs the
star-construction loop of `Partitioner::refine` inserts (for every two
distinct nodes `p`, `q` cohabiting an element, `q` is inserted into
`star[p]` for `p < q`). -/
def pairsOf (ns : List ℕ) : List (ℕ × ℕ) :=
  ns.flatMap (fun a => ns.filterMap (fun b => if a < b then some (a, b) else none))

/-- All unique edges of the connectivity, i.e. the content of the `star`
data structure of `Partitioner::refine`. -/
def edgeList (conn : List ℕ) : List (ℕ × ℕ) :=
  ((List.range (conn.length / 4)).flatMap (fun e => pairsOf (elemNodes4 conn e))).dedup

/-- The `m_edgenodes` map: each unique edge is associated a provisional
node id drawn from a counter starting at the total original node count
(`nnode = er.readHeader()` in `Partitioner::refine`). -/
def edgeIdPairs (conn : List ℕ) (nnode : ℕ) : List ((ℕ × ℕ) × ℕ) :=
  (edgeList conn).zip (List.range' nnode (edgeList conn).length)

/-- Modelled from the spec: `tk::UnsMesh::Edge` (UnsMesh.h is not among
the sources) stores an unordered node pair canonicalized so that
`edge(a,b) == edge(b,a)`; a lookup therefore uses the sorted pair. -/
def edgeKey (a b : ℕ) : ℕ × ℕ :=
  if a ≤ b then (a, b) else (b, a)

/-- The provisional id of the edge-node inserted on edge `a-b` (the
`tk::cref_find( m_edgenodes, {{A,B}} )` lookups of `Partitioner::refine`). -/
def edgeNodeId (conn : List ℕ) (nnode a b : ℕ) : ℕ :=
  ((edgeIdPairs conn nnode).lookup (edgeKey a b)).getD 0

/-- The eight children replacing element `e`, exactly as listed in
`Partitioner::refine` (`tk::UnsMesh::Child18`). -/
def children8 (conn : List ℕ) (nnode e : ℕ) : List ℕ :=
  let A := conn.getD (4 * e) 0
  let B := conn.getD (4 * e + 1) 0
  let C := conn.getD (4 * e + 2) 0
  let D := conn.getD (4 * e + 3) 0
  let AB := edgeNodeId conn nnode A B
  let AC := edgeNodeId conn nnode A C
  let AD := edgeNodeId conn nnode A D
  let BC := edgeNodeId conn nnode B C
  let BD := edgeNodeId conn nnode B D
  let CD := edgeNodeId conn nnode C D
  [A, AB, AC, AD,
   B, BC, AB, BD,
   C, AC, BC, CD,
   D, AD, CD, BD,
   BC, CD, AC, BD,
   AB, BD, AC, AD,
   AB, BC, AC, BD,
   AC, BD, CD, AD]

/-- The refined connectivity: each element replaced in place by its eight
children. -/
def refineConn (conn : List ℕ) (nnode : ℕ) : List ℕ :=
  (List.range (conn.length / 4)).flatMap (children8 conn nnode)

/-- Componentwise midpoint of two coordinate triples:
`(x[i]+x[j])/2.0` etc. in `Partitioner::refine`. -/
def mid (p q : ℚ × ℚ × ℚ) : ℚ × ℚ × ℚ :=
  ((p.1 + q.1) / 2, (p.2.1 + q.2.1) / 2, (p.2.2 + q.2.2) / 2)

/-- The coordinate array after refinement: one midpoint pushed back per
unique edge, in edge order. -/
def refineCoord (conn : List ℕ) (coord : List (ℚ × ℚ × ℚ)) : List (ℚ × ℚ × ℚ) :=
  coord ++ (edgeList conn).map
    (fun pq => mid (coord.getD pq.1 (0, 0, 0)) (coord.getD pq.2 (0, 0, 0)))

theorem children8_length (conn : List ℕ) (nnode e : ℕ) :
    (children8 conn nnode e).length = 32 := rfl

/-- Block extraction from a flat map with fixed block length. -/
theorem flatMap_block (f : ℕ → List ℕ) (L : ℕ) (hf : ∀ a, (f a).length = L) :
    ∀ (l : List ℕ) (e : ℕ), e < l.length →
      ((l.flatMap f).drop (L * e)).take L = f (l.getD e 0) := by
  intro l
  induction l with
  | nil => intro e h; simp at h
  | cons a t ih =>
    intro e he
    cases e with
    | zero =>
      simp only [List.flatMap_cons, Nat.mul_zero, List.drop_zero, List.getD]
      rw [← hf a, List.take_left]
      rfl
    | succ e2 =>
      simp only [List.flatMap_cons]
      have hL : L * (e2 + 1) = (f a).length + L * e2 := by
        rw [hf a]
        ring
      rw [hL, ← List.drop_drop, List.drop_left]
      exact ih e2 (by simpa using he)

theorem flatMap_length_fixed (f : ℕ → List ℕ) (L : ℕ) (hf : ∀ a, (f a).length = L) :
    ∀ l : List ℕ, (l.flatMap f).length = L * l.length := by
  intro l
  induction l with
  | nil => simp
  | cons a t ih =>
    simp only [List.flatMap_cons, List.length_append, ih, hf a, List.length_cons]
    ring

/-- The `k`-th entry of the edge-id association: the `k`-th unique edge
paired with provisional id `nnode + k`. -/
theorem edgeIdPairs_getD (conn : List ℕ) (nnode k : ℕ)
    (hk : k < (edgeList conn).length) :
    (edgeIdPairs conn nnode).getD k ((0, 0), 0)
      = ((edgeList conn).getD k (0, 0), nnode + k) := by
  have hklen : k < ((edgeList conn).zip (List.range' nnode (edgeList conn).length)).length := by
    rw [List.length_zip]
    simp
    omega
  unfold edgeIdPairs
  rw [List.getD_eq_getElem?_getD, List.getElem?_eq_getElem hklen, List.getElem_zip]
  simp only [Option.getD_some]
  rw [List.getElem_range'_1, List.getD_eq_getElem?_getD, List.getElem?_eq_getElem hk]
  rfl

/-- Single-tetrahedron connectivity (concrete scenario of claim C4). -/
def tet1conn : List ℕ := [0, 1, 2, 3]

/-- Coordinates of the unit tetrahedron. -/
def tet1coord : List (ℚ × ℚ × ℚ) := [(0, 0, 0), (1, 0, 0), (0, 1, 0), (0, 0, 1)]

/-- Claim C4: uniform refinement replaces tetrahedron `e` by exactly the
eight-children template of `Partitioner::refine`; the provisional
edge-node ids are drawn consecutively from a counter starting at the
total original node count `nnode`; the `k`-th synthesized coordinate
(appended after the original coordinates, for the edge holding
provisional id `nnode + k`) is the midpoint of the coordinates of the
edge's two endpoints; and one input tetrahedron with 4 nodes yields 8
tetrahedra (32 connectivity entries) and 10 nodes. -/
theorem C4_uniform_refinement (conn : List ℕ) (nnode : ℕ)
    (coord : List (ℚ × ℚ × ℚ)) (e k : ℕ)
    (he : e < conn.length / 4) (hk : k < (edgeList conn).length) :
    (refineConn conn nnode).length = 32 * (conn.length / 4) ∧
    ((refineConn conn nnode).drop (32 * e)).take 32 = children8 conn nnode e ∧
    (edgeIdPairs conn nnode).map Prod.snd = List.range' nnode (edgeList conn).length ∧
    ((edgeIdPairs conn nnode).getD k ((0, 0), 0)).2 = nnode + k ∧
    ((edgeIdPairs conn nnode).getD k ((0, 0), 0)).1 = (edgeList conn).getD k (0, 0) ∧
    (refineCoord conn coord).getD (coord.length + k) (0, 0, 0) =
      mid (coord.getD ((edgeList conn).getD k (0, 0)).1 (0, 0, 0))
          (coord.getD ((edgeList conn).getD k (0, 0)).2 (0, 0, 0)) ∧
    (refineCoord conn coord).length = coord.length + (edgeList conn).length ∧
    (refineConn tet1conn 4).length = 8 * 4 ∧
    (refineCoord tet1conn tet1coord).length = 10 := by
  have hlen : ∀ a, (children8 conn nnode a).length = 32 := fun a => rfl
  have hzip : (edgeIdPairs conn nnode).map Prod.snd
      = List.range' nnode (edgeList conn).length := by
    unfold edgeIdPairs
    rw [List.map_snd_zip]
    simp
  refine ⟨?_, ?_, hzip, ?_, ?_, ?_, ?_, by decide, by decide⟩
  · unfold refineConn
    rw [flatMap_length_fixed (children8 conn nnode) 32 hlen]
    simp
  · unfold refineConn
    have := flatMap_block (children8 conn nnode) 32 hlen
      (List.range (conn.length / 4)) e (by simpa using he)
    rw [this]
    congr 1
    simp [List.getD_eq_getElem?_getD, List.getElem?_range he]
  · rw [edgeIdPairs_getD conn nnode k hk]
  · rw [edgeIdPairs_getD conn nnode k hk]
  · unfold refineCoord
    rw [List.getD_eq_getElem?_getD, List.getElem?_append_right (by omega)]
    have hidx : coord.length + k - coord.length = k := by omega
    rw [hidx, List.getElem?_map, List.getElem?_eq_getElem hk]
    simp [List.getD_eq_getElem?_getD, List.getElem?_eq_getElem hk]
  · unfold refineCoord
    simp

/-- Witness for C4: the single unit tetrahedron, its first child block
and its first synthesized edge-node. -/
theorem C4_uniform_refinement_witness :
    (0 < tet1conn.length / 4 ∧ 0 < (edgeList tet1conn).length) ∧
    ((refineConn tet1conn 4).length = 32 * (tet1conn.length / 4) ∧
    ((refineConn tet1conn 4).drop (32 * 0)).take 32 = children8 tet1conn 4 0 ∧
    (edgeIdPairs tet1conn 4).map Prod.snd = List.range' 4 (edgeList tet1conn).length ∧
    ((edgeIdPairs tet1conn 4).getD 0 ((0, 0), 0)).2 = 4 + 0 ∧
    ((edgeIdPairs tet1conn 4).getD 0 ((0, 0), 0)).1 = (edgeList tet1conn).getD 0 (0, 0) ∧
    (refineCoord tet1conn tet1coord).getD (tet1coord.length + 0) (0, 0, 0) =
      mid (tet1coord.getD ((edgeList tet1conn).getD 0 (0, 0)).1 (0, 0, 0))
          (tet1coord.getD ((edgeList tet1conn).getD 0 (0, 0)).2 (0, 0, 0)) ∧
    (refineCoord tet1conn tet1coord).length = tet1coord.length + (edgeList tet1conn).length ∧
    (refineConn tet1conn 4).length = 8 * 4 ∧
    (refineCoord tet1conn tet1coord).length = 10) :=
  ⟨⟨by decide, by decide⟩,
    C4_uniform_refinement tet1conn 4 tet1coord 0 0 (by decide) (by decide)⟩

/-! ## Part 3: the row-range solver (`tk::Solver`)

`tk::real` is modelled as `ℚ`. The per-row value maps (`m_sol`, `m_rhs`,
`m_lowrhs`, `m_lowlhs`) are association lists from global row id to the
vector of `ncomp` scalar components; `m_lhs` additionally maps each row
to an association list over column ids. `m_bc` maps a row id to the
vector of (is-set, value) pairs.
-/

abbrev Vec := List ℚ

abbrev RowVec := List (ℕ × Vec)

abbrev SpMat := List (ℕ × RowVec)

abbrev BCVec := List (Bool × ℚ)

abbrev BCMap := List (ℕ × BCVec)

/-- Value of component `i` of row `r` of a row-value map (0 when absent). -/
def rowVal (v : RowVec) (r i : ℕ) : ℚ :=
  ((v.lookup r).getD []).getD i 0

/-- Value of component `i` of matrix entry `(r, c)` (0 when absent). -/
def matVal (m : SpMat) (r c i : ℕ) : ℚ :=
  ((((m.lookup r).getD []).lookup c).getD []).getD i 0

/-- Whether component `i` of a BC vector is set (`.first` of the pair). -/
def bcActive (bcv : BCVec) (i : ℕ) : Bool :=
  (bcv.getD i (false, 0)).1

/-- The Dirichlet value of component `i` of a BC vector (`.second`). -/
def bcValue (bcv : BCVec) (i : ℕ) : ℚ :=
  (bcv.getD i (false, 0)).2

/-- In-place update of components `start, start+1, ...` of a value
vector, mirroring the `for (i = 0; i < m_ncomp; ++i)` loops. -/
def mapIdxFrom {α : Type} (f : ℕ → α → α) : ℕ → List α → List α
  | _, [] => []
  | s, a :: l => f s a :: mapIdxFrom f (s + 1) l

theorem mapIdxFrom_getD {α : Type} (f : ℕ → α → α) (d : α) :
    ∀ (l : List α) (s i : ℕ), i < l.length →
      (mapIdxFrom f s l).getD i d = f (s + i) (l.getD i d) := by
  intro l
  induction l with
  | nil => intro s i h; simp at h
  | cons a t ih =>
    intro s i h
    cases i with
    | zero => simp [mapIdxFrom]
    | succ i2 =>
      simp only [mapIdxFrom, List.getD_cons_succ]
      rw [ih (s + 1) i2 (by simpa using h)]
      congr 1
      omega

/-- Generic fact about keyed maps: mapping every entry value with a
key-dependent function commutes with lookup. -/
theorem lookup_map_keyed {β γ : Type} (g : ℕ → β → γ) (l : List (ℕ × β)) (k : ℕ) :
    (l.map (fun p => (p.1, g p.1 p.2))).lookup k = (l.lookup k).map (g k) := by
  induction l with
  | nil => rfl
  | cons a l ih =>
    simp only [List.map_cons, List.lookup]
    rcases h : (k == a.1) with _ | _
    · simpa [h] using ih
    · have : k = a.1 := by simpa using h
      subst this
      simp

/-! ### Dirichlet boundary conditions (`Solver::lhsbc`, `Solver::rhsbc`) -/

/-- The BC rewrite of one `ncomp`-vector of a BC row of the lhs matrix:
for each set component, every column entry is zeroed and the diagonal
entry is then set to 1 (`Solver::lhsbc`). -/
def lhsbcEntry (bcv : BCVec) (isdiag : Bool) (vals : Vec) : Vec :=
  mapIdxFrom (fun i v => if bcActive bcv i then (if isdiag then 1 else 0) else v) 0 vals

/-- The BC rewrite of one row of the lhs matrix: applied only if the row
carries a BC and lies in the PE's own row range `[lower, upper)`. -/
def lhsbcRow (lower upper : ℕ) (bc : BCMap) (r : ℕ) (row : RowVec) : RowVec :=
  match bc.lookup r with
  | some bcv =>
      if lower ≤ r ∧ r < upper then
        row.map (fun cv => (cv.1, lhsbcEntry bcv (cv.1 == r) cv.2))
      else row
  | none => row

/-- `Solver::lhsbc`: set Dirichlet BCs on the assembled lhs matrix. -/
def lhsbc (lower upper : ℕ) (bc : BCMap) (lhs : SpMat) : SpMat :=
  lhs.map (fun rr => (rr.1, lhsbcRow lower upper bc rr.1 rr.2))

/-- The BC rewrite of one rhs row: each set component is overwritten with
the boundary-condition value (`Solver::rhsbc`). -/
def rhsbcRow (lower upper : ℕ) (bc : BCMap) (r : ℕ) (vals : Vec) : Vec :=
  match bc.lookup r with
  | some bcv =>
      if lower ≤ r ∧ r < upper then
        mapIdxFrom (fun i v => if bcActive bcv i then bcValue bcv i else v) 0 vals
      else vals
  | none => vals

/-- `Solver::rhsbc`: set Dirichlet BCs on the assembled rhs vector. -/
def rhsbc (lower upper : ℕ) (bc : BCMap) (rhs : RowVec) : RowVec :=
  rhs.map (fun rv => (rv.1, rhsbcRow lower upper bc rv.1 rv.2))

/-! ### The low-order solve (`Solver::lowsolve`) -/

/-- BC pass of `Solver::lowsolve` on the low-order lhs: set components of
in-range BC rows to 1. -/
def lowlhsbcRow (lower upper : ℕ) (bc : BCMap) (r : ℕ) (vals : Vec) : Vec :=
  match bc.lookup r with
  | some bcv =>
      if lower ≤ r ∧ r < upper then
        mapIdxFrom (fun i v => if bcActive bcv i then 1 else v) 0 vals
      else vals
  | none => vals

/-- The low-order lhs after the BC pass of `Solver::lowsolve`. -/
def lowlhsbc (lower upper : ℕ) (bc : BCMap) (lowlhs : RowVec) : RowVec :=
  lowlhs.map (fun rv => (rv.1, lowlhsbcRow lower upper bc rv.1 rv.2))

/-- BC pass of `Solver::lowsolve` on the low-order rhs: set components of
in-range BC rows to 0. -/
def lowrhsbcRow (lower upper : ℕ) (bc : BCMap) (r : ℕ) (vals : Vec) : Vec :=
  match bc.lookup r with
  | some bcv =>
      if lower ≤ r ∧ r < upper then
        mapIdxFrom (fun i v => if bcActive bcv i then 0 else v) 0 vals
      else vals
  | none => vals

/-- The low-order rhs after the BC pass of `Solver::lowsolve`. -/
def lowrhsbc (lower upper : ℕ) (bc : BCMap) (lowrhs : RowVec) : RowVec :=
  lowrhs.map (fun rv => (rv.1, lowrhsbcRow lower upper bc rv.1 rv.2))

/-- Componentwise `d[i] = (r[i] + d[i]) / m[i]` of `Solver::lowsolve`. -/
def solveVec : Vec → Vec → Vec → Vec
  | r :: rs, d :: ds, m :: ms => (r + d) / m :: solveVec rs ds ms
  | _, _, _ => []

/-- The lockstep iteration of `Solver::lowsolve` over the three row maps
(`m_rhs`, `m_lowrhs`, `m_lowlhs`), which the code asserts to have equal
key sets; the result overwrites `m_lowrhs`. -/
def lowsolveLoop : RowVec → RowVec → RowVec → RowVec
  | rr :: rs, dd :: ds, mm :: ms => (dd.1, solveVec rr.2 dd.2 mm.2) :: lowsolveLoop rs ds ms
  | _, _, _ => []

/-- `Solver::lowsolve`: BC passes on the low-order system, then the
diagonal solve against the (BC-applied) rhs. -/
def lowsolve (lower upper : ℕ) (bc : BCMap) (rhs lowrhs lowlhs : RowVec) : RowVec :=
  lowsolveLoop rhs (lowrhsbc lower upper bc lowrhs) (lowlhsbc lower upper bc lowlhs)

theorem lhsbcRow_untouched (lower upper : ℕ) (bc : BCMap) (r : ℕ) (row : RowVec)
    (h : bc.lookup r = none ∨ r < lower ∨ upper ≤ r) :
    lhsbcRow lower upper bc r row = row := by
  unfold lhsbcRow
  rcases hb : bc.lookup r with _ | bcv
  · rfl
  · rcases h with h | h | h
    · rw [hb] at h
      exact absurd h (by simp)
    · have hc : ¬(lower ≤ r ∧ r < upper) := by omega
      simp [hc]
    · have hc : ¬(lower ≤ r ∧ r < upper) := by omega
      simp [hc]

theorem rhsbcRow_untouched (lower upper : ℕ) (bc : BCMap) (r : ℕ) (vals : Vec)
    (h : bc.lookup r = none ∨ r < lower ∨ upper ≤ r) :
    rhsbcRow lower upper bc r vals = vals := by
  unfold rhsbcRow
  rcases hb : bc.lookup r with _ | bcv
  · rfl
  · rcases h with h | h | h
    · rw [hb] at h
      exact absurd h (by simp)
    · have hc : ¬(lower ≤ r ∧ r < upper) := by omega
      simp [hc]
    · have hc : ¬(lower ≤ r ∧ r < upper) := by omega
      simp [hc]

/-- Claim C5: Dirichlet BC application. For each BC row `r` inside the
local row range and each set component `i`, every column entry of
component `i` of lhs row `r` becomes 0 and the diagonal entry becomes 1;
the rhs entry becomes the BC value (the code applies the
set-the-BC-value variant unconditionally; setting 0 for increment-form
systems is the documented alternative); components not set and rows
without BCs or outside the local range are untouched. -/
theorem C5_dirichlet_bc (lower upper : ℕ) (bc : BCMap) (lhs : SpMat) (rhs : RowVec)
    (r c i : ℕ) (bcv : BCVec) (row : RowVec) (vals rv : Vec)
    (hbc : bc.lookup r = some bcv) (hlo : lower ≤ r) (hhi : r < upper)
    (hrow : lhs.lookup r = some row) (hcol : row.lookup c = some vals)
    (hlen : i < vals.length)
    (hrv : rhs.lookup r = some rv) (hlen2 : i < rv.length) :
    (bcActive bcv i = true →
      matVal (lhsbc lower upper bc lhs) r c i = if c = r then 1 else 0) ∧
    (bcActive bcv i = false →
      matVal (lhsbc lower upper bc lhs) r c i = matVal lhs r c i) ∧
    (bcActive bcv i = true →
      rowVal (rhsbc lower upper bc rhs) r i = bcValue bcv i) ∧
    (bcActive bcv i = false →
      rowVal (rhsbc lower upper bc rhs) r i = rowVal rhs r i) ∧
    (∀ r2, (bc.lookup r2 = none ∨ r2 < lower ∨ upper ≤ r2) →
      (lhsbc lower upper bc lhs).lookup r2 = lhs.lookup r2 ∧
      (rhsbc lower upper bc rhs).lookup r2 = rhs.lookup r2) := by
  have hA : (lhsbc lower upper bc lhs).lookup r
      = some (lhsbcRow lower upper bc r row) := by
    unfold lhsbc
    rw [lookup_map_keyed (lhsbcRow lower upper bc), hrow]
    rfl
  have hB : lhsbcRow lower upper bc r row
      = row.map (fun cv => (cv.1, lhsbcEntry bcv (cv.1 == r) cv.2)) := by
    unfold lhsbcRow
    simp only [hbc]
    rw [if_pos ⟨hlo, hhi⟩]
  have hC : (lhsbcRow lower upper bc r row).lookup c
      = some (lhsbcEntry bcv (c == r) vals) := by
    rw [hB, lookup_map_keyed (fun key v => lhsbcEntry bcv (key == r) v), hcol]
    rfl
  have hmat : matVal (lhsbc lower upper bc lhs) r c i
      = if bcActive bcv i = true then (if c = r then (1 : ℚ) else 0)
        else vals.getD i 0 := by
    unfold matVal
    rw [hA]
    simp only [Option.getD_some]
    rw [hC]
    simp only [Option.getD_some]
    unfold lhsbcEntry
    rw [mapIdxFrom_getD _ 0 vals 0 i hlen]
    by_cases hact : bcActive bcv i
    · by_cases hcr : c = r <;> simp [hact, hcr, Nat.zero_add]
    · simp [hact, Nat.zero_add]
  have hA2 : (rhsbc lower upper bc rhs).lookup r
      = some (rhsbcRow lower upper bc r rv) := by
    unfold rhsbc
    rw [lookup_map_keyed (rhsbcRow lower upper bc), hrv]
    rfl
  have hrhs : rowVal (rhsbc lower upper bc rhs) r i
      = if bcActive bcv i = true then bcValue bcv i else rv.getD i 0 := by
    unfold rowVal
    rw [hA2]
    simp only [Option.getD_some]
    unfold rhsbcRow
    simp only [hbc]
    rw [if_pos ⟨hlo, hhi⟩, mapIdxFrom_getD _ 0 rv 0 i hlen2]
    by_cases hact : bcActive bcv i
    · simp [hact, Nat.zero_add]
    · simp [hact, Nat.zero_add]
  refine ⟨?_, ?_, ?_, ?_, ?_⟩
  · intro hact
    rw [hmat, if_pos hact]
  · intro hact
    rw [hmat, if_neg (by simp [hact])]
    unfold matVal
    rw [hrow]
    simp only [Option.getD_some]
    rw [hcol]
    rfl
  · intro hact
    rw [hrhs, if_pos hact]
  · intro hact
    rw [hrhs, if_neg (by simp [hact])]
    unfold rowVal
    rw [hrv]
    rfl
  · intro r2 hcase
    constructor
    · unfold lhsbc
      rw [lookup_map_keyed (lhsbcRow lower upper bc)]
      rcases hl : lhs.lookup r2 with _ | row2
      · rfl
      · simp [lhsbcRow_untouched lower upper bc r2 row2 hcase]
    · unfold rhsbc
      rw [lookup_map_keyed (rhsbcRow lower upper bc)]
      rcases hl : rhs.lookup r2 with _ | rv2
      · rfl
      · simp [rhsbcRow_untouched lower upper bc r2 rv2 hcase]

/-- Concrete BC map for the C5/C6 witnesses: row 1 sets component 0 to 9. -/
def bcC5 : BCMap := [(1, [(true, 9), (false, 0)])]

/-- Concrete two-row lhs matrix. -/
def lhsC5 : SpMat := [(0, [(0, [2, 2]), (1, [1, 1])]), (1, [(0, [1, 1]), (1, [2, 2])])]

/-- Concrete two-row rhs vector. -/
def rhsC5 : RowVec := [(0, [4, 4]), (1, [5, 5])]

/-- Witness for C5 at the concrete two-row system, BC row 1, column 0,
component 0. -/
theorem C5_dirichlet_bc_witness :
    (bcC5.lookup 1 = some [(true, 9), (false, 0)] ∧ 0 ≤ 1 ∧ 1 < 2 ∧
      lhsC5.lookup 1 = some [(0, [1, 1]), (1, [2, 2])] ∧
      ([((0 : ℕ), [(1 : ℚ), 1]), (1, [2, 2])].lookup (0 : ℕ) = some [1, 1]) ∧
      (0 : ℕ) < ([(1 : ℚ), 1]).length ∧
      rhsC5.lookup 1 = some [5, 5] ∧ (0 : ℕ) < ([(5 : ℚ), 5]).length) ∧
    ((bcActive [(true, 9), (false, 0)] 0 = true →
      matVal (lhsbc 0 2 bcC5 lhsC5) 1 0 0 = if (0 : ℕ) = 1 then 1 else 0) ∧
    (bcActive [(true, 9), (false, 0)] 0 = false →
      matVal (lhsbc 0 2 bcC5 lhsC5) 1 0 0 = matVal lhsC5 1 0 0) ∧
    (bcActive [(true, 9), (false, 0)] 0 = true →
      rowVal (rhsbc 0 2 bcC5 rhsC5) 1 0 = bcValue [(true, 9), (false, 0)] 0) ∧
    (bcActive [(true, 9), (false, 0)] 0 = false →
      rowVal (rhsbc 0 2 bcC5 rhsC5) 1 0 = rowVal rhsC5 1 0) ∧
    (∀ r2, (bcC5.lookup r2 = none ∨ r2 < 0 ∨ 2 ≤ r2) →
      (lhsbc 0 2 bcC5 lhsC5).lookup r2 = lhsC5.lookup r2 ∧
      (rhsbc 0 2 bcC5 rhsC5).lookup r2 = rhsC5.lookup r2)) :=
  ⟨⟨by decide, by decide, by decide, by decide, by decide, by decide, by decide, by decide⟩,
    C5_dirichlet_bc 0 2 bcC5 lhsC5 rhsC5 1 0 0 [(true, 9), (false, 0)]
      [(0, [1, 1]), (1, [2, 2])] [1, 1] [5, 5]
      (by decide) (by decide) (by decide) (by decide) (by decide) (by decide)
      (by decide) (by decide)⟩

theorem mapIdxFrom_length {α : Type} (f : ℕ → α → α) :
    ∀ (s : ℕ) (l : List α), (mapIdxFrom f s l).length = l.length := by
  intro s l
  induction l generalizing s with
  | nil => rfl
  | cons a t ih => simp [mapIdxFrom, ih]

theorem lowrhsbcRow_length (lower upper : ℕ) (bc : BCMap) (r : ℕ) (vals : Vec) :
    (lowrhsbcRow lower upper bc r vals).length = vals.length := by
  unfold lowrhsbcRow
  rcases hb : bc.lookup r with _ | bcv
  · rfl
  · simp only [hb]
    split
    · exact mapIdxFrom_length _ 0 vals
    · rfl

theorem lowlhsbcRow_length (lower upper : ℕ) (bc : BCMap) (r : ℕ) (vals : Vec) :
    (lowlhsbcRow lower upper bc r vals).length = vals.length := by
  unfold lowlhsbcRow
  rcases hb : bc.lookup r with _ | bcv
  · rfl
  · simp only [hb]
    split
    · exact mapIdxFrom_length _ 0 vals
    · rfl

theorem lowrhsbc_map_fst (lower upper : ℕ) (bc : BCMap) (v : RowVec) :
    (lowrhsbc lower upper bc v).map Prod.fst = v.map Prod.fst := by
  unfold lowrhsbc
  rw [List.map_map]
  rfl

theorem lowlhsbc_map_fst (lower upper : ℕ) (bc : BCMap) (v : RowVec) :
    (lowlhsbc lower upper bc v).map Prod.fst = v.map Prod.fst := by
  unfold lowlhsbc
  rw [List.map_map]
  rfl

theorem solveVec_getD :
    ∀ (a b c : Vec) (i : ℕ), i < a.length → a.length = b.length →
      a.length = c.length →
      (solveVec a b c).getD i 0 = (a.getD i 0 + b.getD i 0) / c.getD i 0 := by
  intro a
  induction a with
  | nil =>
    intro b c i h
    simp at h
  | cons x a ih =>
    intro b c i h hb hc
    cases b with
    | nil => simp at hb
    | cons y b =>
      cases c with
      | nil => simp at hc
      | cons z c =>
        cases i with
        | zero => simp [solveVec]
        | succ i2 =>
          simp only [solveVec, List.getD_cons_succ]
          exact ih b c i2 (by simpa using h) (by simpa using hb) (by simpa using hc)

/-- Lookup in the lockstep loop of `Solver::lowsolve`: when the three
maps have equal key lists, the loop computes the componentwise solve of
the three rows of each key. -/
theorem lowsolveLoop_lookup :
    ∀ (rs ds ms : RowVec) (r : ℕ),
      rs.map Prod.fst = ds.map Prod.fst → rs.map Prod.fst = ms.map Prod.fst →
      (lowsolveLoop rs ds ms).lookup r =
        match rs.lookup r, ds.lookup r, ms.lookup r with
        | some a, some b, some c => some (solveVec a b c)
        | _, _, _ => none := by
  intro rs
  induction rs with
  | nil =>
    intro ds ms r h1 h2
    have hds : ds = [] := by
      cases ds
      · rfl
      · simp at h1
    have hms : ms = [] := by
      cases ms
      · rfl
      · simp at h2
    subst hds
    subst hms
    rfl
  | cons rr rs ih =>
    intro ds ms r h1 h2
    cases ds with
    | nil => simp at h1
    | cons dd ds2 =>
      cases ms with
      | nil => simp at h2
      | cons mm ms2 =>
        simp only [List.map_cons, List.cons.injEq] at h1 h2
        simp only [lowsolveLoop, List.lookup]
        rcases hbeq : (r == dd.1) with _ | _
        · have hne1 : (r == rr.1) = false := by
            rw [h1.1]
            exact hbeq
          have hne3 : (r == mm.1) = false := by
            rw [← h2.1, h1.1]
            exact hbeq
          simp only [hbeq, hne1, hne3, cond_false]
          exact ih ds2 ms2 r h1.2 h2.2
        · have heq1 : (r == rr.1) = true := by
            rw [h1.1]
            exact hbeq
          have heq3 : (r == mm.1) = true := by
            rw [← h2.1, h1.1]
            exact hbeq
          simp only [hbeq, heq1, heq3, cond_true]

/-- Claim C6, amended: for every row of the local row maps (which have
equal key sets, asserted by the code), the low-order solution is
`x_low[r] = (rhs[r] + lowrhs[r]) / lowlhs[r]` componentwise, where
`lowrhs` and `lowlhs` carry the low-order BC pass of `Solver::lowsolve`:
at BC rows in range with set components, `lowlhs[r][i] = 1` and
`lowrhs[r][i] = 0`, so there `x_low[r][i] = rhs[r][i]` (the rhs value,
which `Solver::rhsbc` set to the Dirichlet value — not 0 as the original
claim stated). -/
theorem C6_low_order_solve (lower upper : ℕ) (bc : BCMap)
    (rhs lowrhs lowlhs : RowVec) (r i : ℕ) (rv dv mv : Vec)
    (hk1 : rhs.map Prod.fst = lowrhs.map Prod.fst)
    (hk2 : rhs.map Prod.fst = lowlhs.map Prod.fst)
    (hr : rhs.lookup r = some rv) (hd : lowrhs.lookup r = some dv)
    (hm : lowlhs.lookup r = some mv)
    (hlen1 : rv.length = dv.length) (hlen2 : rv.length = mv.length)
    (hi : i < rv.length) :
    rowVal (lowsolve lower upper bc rhs lowrhs lowlhs) r i =
      (rowVal rhs r i + rowVal (lowrhsbc lower upper bc lowrhs) r i) /
        rowVal (lowlhsbc lower upper bc lowlhs) r i ∧
    (∀ bcv, bc.lookup r = some bcv → lower ≤ r → r < upper →
      bcActive bcv i = true →
      rowVal (lowlhsbc lower upper bc lowlhs) r i = 1 ∧
      rowVal (lowrhsbc lower upper bc lowrhs) r i = 0 ∧
      rowVal (lowsolve lower upper bc rhs lowrhs lowlhs) r i = rowVal rhs r i) := by
  have hd2 : (lowrhsbc lower upper bc lowrhs).lookup r
      = some (lowrhsbcRow lower upper bc r dv) := by
    unfold lowrhsbc
    rw [lookup_map_keyed (lowrhsbcRow lower upper bc), hd]
    rfl
  have hm2 : (lowlhsbc lower upper bc lowlhs).lookup r
      = some (lowlhsbcRow lower upper bc r mv) := by
    unfold lowlhsbc
    rw [lookup_map_keyed (lowlhsbcRow lower upper bc), hm]
    rfl
  have hloop : (lowsolve lower upper bc rhs lowrhs lowlhs).lookup r
      = some (solveVec rv (lowrhsbcRow lower upper bc r dv)
          (lowlhsbcRow lower upper bc r mv)) := by
    unfold lowsolve
    rw [lowsolveLoop_lookup rhs (lowrhsbc lower upper bc lowrhs)
      (lowlhsbc lower upper bc lowlhs) r
      (by rw [hk1, lowrhsbc_map_fst]) (by rw [hk2, lowlhsbc_map_fst])]
    rw [hr, hd2, hm2]
  have hdlen : rv.length = (lowrhsbcRow lower upper bc r dv).length := by
    rw [lowrhsbcRow_length]
    exact hlen1
  have hmlen : rv.length = (lowlhsbcRow lower upper bc r mv).length := by
    rw [lowlhsbcRow_length]
    exact hlen2
  have hmain : rowVal (lowsolve lower upper bc rhs lowrhs lowlhs) r i =
      (rowVal rhs r i + rowVal (lowrhsbc lower upper bc lowrhs) r i) /
        rowVal (lowlhsbc lower upper bc lowlhs) r i := by
    unfold rowVal
    rw [hloop, hr, hd2, hm2]
    simp only [Option.getD_some]
    exact solveVec_getD rv _ _ i hi hdlen hmlen
  refine ⟨hmain, ?_⟩
  intro bcv hbc hlo hhi hact
  have h1 : rowVal (lowlhsbc lower upper bc lowlhs) r i = 1 := by
    unfold rowVal
    rw [hm2]
    simp only [Option.getD_some]
    unfold lowlhsbcRow
    simp only [hbc]
    rw [if_pos ⟨hlo, hhi⟩, mapIdxFrom_getD _ 0 mv 0 i (by omega)]
    simp [hact]
  have h0 : rowVal (lowrhsbc lower upper bc lowrhs) r i = 0 := by
    unfold rowVal
    rw [hd2]
    simp only [Option.getD_some]
    unfold lowrhsbcRow
    simp only [hbc]
    rw [if_pos ⟨hlo, hhi⟩, mapIdxFrom_getD _ 0 dv 0 i (by omega)]
    simp [hact]
  refine ⟨h1, h0, ?_⟩
  rw [hmain, h1, h0]
  simp

/-- Concrete assembled rhs for the C6 counterexample: row 0 assembled to
7 before BC application. -/
def rhsC6 : RowVec := [(0, [7])]

/-- Concrete BC map for the C6 counterexample: row 0 sets component 0 to
the (nonzero) Dirichlet value 5. -/
def bcC6 : BCMap := [(0, [(true, 5)])]

/-- Concrete low-order rhs contribution. -/
def lowrhsC6 : RowVec := [(0, [3])]

/-- Concrete low-order (lumped-mass) lhs. -/
def lowlhsC6 : RowVec := [(0, [2])]

/-- Claim C6 as stated is false on the code: at the BC row 0 (in range
`[0, 1)`) with Dirichlet value 5, the rhs entering `Solver::lowsolve` is
5 — `Solver::rhsbc` sets the BC *value*, it is `lowrhs`, not `rhs`, that
the low-order BC pass zeroes — and the low-order solution is 5, not
`(0 + lowrhs) / 1`. -/
theorem C6_counterexample :
    rowVal (rhsbc 0 1 bcC6 rhsC6) 0 0 = 5 ∧ (5 : ℚ) ≠ 0 ∧
      rowVal (lowsolve 0 1 bcC6 (rhsbc 0 1 bcC6 rhsC6) lowrhsC6 lowlhsC6) 0 0 = 5 := by
  refine ⟨by decide, by norm_num, ?_⟩
  have hval : rowVal (lowsolve 0 1 bcC6 (rhsbc 0 1 bcC6 rhsC6) lowrhsC6 lowlhsC6) 0 0
      = ((5 : ℚ) + 0) / 1 := by
    norm_num [lowsolve, lowsolveLoop, lowrhsbc, lowlhsbc, lowrhsbcRow, lowlhsbcRow,
      rhsbc, rhsbcRow, bcC6, rhsC6, lowrhsC6, lowlhsC6, rowVal, solveVec,
      mapIdxFrom, bcActive, bcValue, List.lookup]
  rw [hval]
  norm_num

/-- Witness for the amended claim C6 at the concrete one-row system. -/
theorem C6_low_order_solve_witness :
    ((rhsbc 0 1 bcC6 rhsC6).map Prod.fst = lowrhsC6.map Prod.fst ∧
      (rhsbc 0 1 bcC6 rhsC6).map Prod.fst = lowlhsC6.map Prod.fst ∧
      (rhsbc 0 1 bcC6 rhsC6).lookup 0 = some [5] ∧
      lowrhsC6.lookup 0 = some [3] ∧ lowlhsC6.lookup 0 = some [2] ∧
      ([(5 : ℚ)]).length = ([(3 : ℚ)]).length ∧
      ([(5 : ℚ)]).length = ([(2 : ℚ)]).length ∧ 0 < ([(5 : ℚ)]).length) ∧
    (rowVal (lowsolve 0 1 bcC6 (rhsbc 0 1 bcC6 rhsC6) lowrhsC6 lowlhsC6) 0 0 =
      (rowVal (rhsbc 0 1 bcC6 rhsC6) 0 0 + rowVal (lowrhsbc 0 1 bcC6 lowrhsC6) 0 0) /
        rowVal (lowlhsbc 0 1 bcC6 lowlhsC6) 0 0 ∧
    (∀ bcv, bcC6.lookup 0 = some bcv → 0 ≤ 0 → 0 < 1 →
      bcActive bcv 0 = true →
      rowVal (lowlhsbc 0 1 bcC6 lowlhsC6) 0 0 = 1 ∧
      rowVal (lowrhsbc 0 1 bcC6 lowrhsC6) 0 0 = 0 ∧
      rowVal (lowsolve 0 1 bcC6 (rhsbc 0 1 bcC6 rhsC6) lowrhsC6 lowlhsC6) 0 0 =
        rowVal (rhsbc 0 1 bcC6 rhsC6) 0 0)) :=
  ⟨⟨by decide, by decide, by decide, by decide, by decide, by decide, by decide, by decide⟩,
    C6_low_order_solve 0 1 bcC6 (rhsbc 0 1 bcC6 rhsC6) lowrhsC6 lowlhsC6 0 0
      [5] [3] [2] (by decide) (by decide) (by decide) (by decide) (by decide)
      (by decide) (by decide) (by decide)⟩

/-! ### Claim C7: merge semantics of per-chare contributions -/

/-- `Solver::pe`: find the owning PE of a global row id by scanning the
division map `m_div` (the memoization cache `m_pe` only short-circuits
repeated queries and never changes the result); the fold keeps the last
division containing the id, starting from the sentinel -1. -/
def peOf (div : List ((ℕ × ℕ) × ℤ)) (gid : ℕ) : ℤ :=
  div.foldl (fun p d => if d.1.1 ≤ gid ∧ gid < d.1.2 then d.2 else p) (-1)

/-- Modelled from the spec: componentwise `tk::operator+=` on value
vectors (ContainerUtil.h is not among the sources); a
default-constructed empty vector acts as zero. -/
def vecAdd (a b : Vec) : Vec :=
  if a.isEmpty then b else a.zipWith (· + ·) b

/-- `m_sol[gid] = v`: overwrite-or-insert into a row map
(`Solver::charesol` / `Solver::addsol`). -/
def setRow : RowVec → ℕ → Vec → RowVec
  | [], k, v => [(k, v)]
  | p :: m, k, v => if p.1 = k then (k, v) :: m else p :: setRow m k v

/-- `m_rhs[gid] += v`: add-or-insert into a row map (`Solver::charerhs`,
`Solver::addrhs`, and identically for the low-order vectors). -/
def addRow : RowVec → ℕ → Vec → RowVec
  | [], k, v => [(k, vecAdd [] v)]
  | p :: m, k, v => if p.1 = k then (k, vecAdd p.2 v) :: m else p :: addRow m k v

/-- `Solver::addsol`: receive solution rows, overwrite semantics. -/
def addsol (sol : RowVec) (items : List (ℕ × Vec)) : RowVec :=
  items.foldl (fun s it => setRow s it.1 it.2) sol

/-- `Solver::addrhs`: receive rhs rows, sum semantics. -/
def addrhs (rhs : RowVec) (items : List (ℕ × Vec)) : RowVec :=
  items.foldl (fun s it => addRow s it.1 it.2) rhs

/-- `Solver::addlowrhs`: receive low-order rhs rows, sum semantics. -/
def addlowrhs (lowrhs : RowVec) (items : List (ℕ × Vec)) : RowVec :=
  items.foldl (fun s it => addRow s it.1 it.2) lowrhs

/-- `Solver::addlowlhs`: receive low-order lhs rows, sum semantics. -/
def addlowlhs (lowlhs : RowVec) (items : List (ℕ × Vec)) : RowVec :=
  items.foldl (fun s it => addRow s it.1 it.2) lowlhs

/-- Add a batch of column contributions into one matrix row
(`auto& row = m_lhs[r]; for c: row[c] += v` in `Solver::addlhs`). -/
def addRowInto (row : RowVec) (cols : RowVec) : RowVec :=
  cols.foldl (fun acc cv => addRow acc cv.1 cv.2) row

/-- Add one row of column contributions into the lhs matrix. -/
def addlhsRow : SpMat → ℕ → RowVec → SpMat
  | [], r, cols => [(r, addRowInto [] cols)]
  | p :: m, r, cols => if p.1 = r then (r, addRowInto p.2 cols) :: m else p :: addlhsRow m r cols

/-- `Solver::addlhs`: receive matrix rows, sum semantics per entry. -/
def addlhs (lhs : SpMat) (items : List (ℕ × RowVec)) : SpMat :=
  items.foldl (fun m it => addlhsRow m it.1 it.2) lhs

/-- `Solver::charesol`: rows inside the local `[lower, upper)` are stored
(overwrite), all others are collected for export keyed by the owning PE
(`exp[ pe(gid) ][ gid ] = v` then one `addsol` message per destination). -/
def charesol (lower upper : ℕ) (div : List ((ℕ × ℕ) × ℤ)) (sol : RowVec)
    (items : List (ℕ × Vec)) : RowVec × List (ℤ × ℕ × Vec) :=
  items.foldl
    (fun acc it =>
      if lower ≤ it.1 ∧ it.1 < upper then (setRow acc.1 it.1 it.2, acc.2)
      else (acc.1, acc.2 ++ [(peOf div it.1, it.1, it.2)]))
    (sol, [])

/-- `Solver::charerhs`: rows inside the local `[lower, upper)` are added
into the local store, all others are collected for export keyed by the
owning PE. -/
def charerhs (lower upper : ℕ) (div : List ((ℕ × ℕ) × ℤ)) (rhs : RowVec)
    (items : List (ℕ × Vec)) : RowVec × List (ℤ × ℕ × Vec) :=
  items.foldl
    (fun acc it =>
      if lower ≤ it.1 ∧ it.1 < upper then (addRow acc.1 it.1 it.2, acc.2)
      else (acc.1, acc.2 ++ [(peOf div it.1, it.1, it.2)]))
    (rhs, [])

theorem lookup_setRow_self (m : RowVec) (k : ℕ) (v : Vec) :
    (setRow m k v).lookup k = some v := by
  induction m with
  | nil => simp [setRow, List.lookup]
  | cons p m ih =>
    by_cases h : p.1 = k
    · simp [setRow, h, List.lookup]
    · have hbeq : (k == p.1) = false := beq_false_of_ne (fun hc => h hc.symm)
      simp [setRow, h, List.lookup, hbeq, ih]

theorem lookup_addRow_self (m : RowVec) (k : ℕ) (v : Vec) :
    (addRow m k v).lookup k = some (vecAdd ((m.lookup k).getD []) v) := by
  induction m with
  | nil => simp [addRow, List.lookup]
  | cons p m ih =>
    by_cases h : p.1 = k
    · simp [addRow, h, List.lookup]
    · have hbeq : (k == p.1) = false := beq_false_of_ne (fun hc => h hc.symm)
      simp [addRow, h, List.lookup, hbeq, ih]

theorem setRow_setRow (m : RowVec) (k : ℕ) (v : Vec) :
    setRow (setRow m k v) k v = setRow m k v := by
  induction m with
  | nil => simp [setRow]
  | cons p m ih =>
    by_cases h : p.1 = k
    · simp [setRow, h]
    · simp [setRow, h, ih]

theorem zipWith_add_getD :
    ∀ (a b : Vec) (i : ℕ), i < a.length → a.length = b.length →
      (List.zipWith (· + ·) a b).getD i 0 = a.getD i 0 + b.getD i 0 := by
  intro a
  induction a with
  | nil =>
    intro b i h
    simp at h
  | cons x a ih =>
    intro b i h hlen
    cases b with
    | nil => simp at hlen
    | cons y b =>
      cases i with
      | zero => simp
      | succ i2 =>
        simp only [List.zipWith_cons_cons, List.getD_cons_succ]
        exact ih b i2 (by simpa using h) (by simpa using hlen)

theorem vecAdd_getD (a b : Vec) (i : ℕ) (hi : i < b.length)
    (hlen : a = [] ∨ a.length = b.length) :
    (vecAdd a b).getD i 0 = a.getD i 0 + b.getD i 0 := by
  rcases hlen with rfl | hlen
  · simp [vecAdd]
  · rcases a with _ | ⟨x, a⟩
    · simp [vecAdd]
    · unfold vecAdd
      rw [if_neg (by simp)]
      exact zipWith_add_getD _ b i (by omega) hlen

/-- One `+=` contribution to a row: componentwise sum with whatever was
stored (0 when the row was absent). -/
theorem addRow_rowVal (m : RowVec) (k : ℕ) (v : Vec) (i : ℕ) (hi : i < v.length)
    (hlen : ∀ w, m.lookup k = some w → w = [] ∨ w.length = v.length) :
    rowVal (addRow m k v) k i = rowVal m k i + v.getD i 0 := by
  unfold rowVal
  rw [lookup_addRow_self]
  simp only [Option.getD_some]
  rcases hm : m.lookup k with _ | w
  · simp [vecAdd]
  · simp only [Option.getD_some]
    exact vecAdd_getD w v i hi (hlen w hm)

/-- Lengths after one `+=`: the stored vector keeps the contribution
length (needed to chain two contributions). -/
theorem addRow_lookup_length (m : RowVec) (k : ℕ) (v : Vec)
    (hlen : ∀ w, m.lookup k = some w → w = [] ∨ w.length = v.length) :
    ∀ w2, (addRow m k v).lookup k = some w2 → w2 = [] ∨ w2.length = v.length := by
  intro w2 h2
  rw [lookup_addRow_self] at h2
  rcases Option.some_inj.mp h2 with rfl
  rcases hm : m.lookup k with _ | w
  · simp [hm, vecAdd]
  · simp only [hm, Option.getD_some]
    rcases hlen w hm with rfl | hl
    · simp [vecAdd]
    · right
      unfold vecAdd
      rcases w with _ | ⟨x, w⟩
      · simp
      · rw [if_neg (by simp)]
        simp only [List.length_zipWith, List.length_cons]
        simp only [List.length_cons] at hl
        omega

theorem addRow_twice_rowVal (m : RowVec) (k : ℕ) (v1 v2 : Vec) (i : ℕ)
    (hi : i < v1.length) (hl12 : v1.length = v2.length)
    (hlen : ∀ w, m.lookup k = some w → w = [] ∨ w.length = v1.length) :
    rowVal (addRow (addRow m k v1) k v2) k i
      = rowVal m k i + v1.getD i 0 + v2.getD i 0 := by
  have h1 := addRow_rowVal m k v1 i hi hlen
  have hlen2 : ∀ w, (addRow m k v1).lookup k = some w →
      w = [] ∨ w.length = v2.length := by
    intro w h
    rcases addRow_lookup_length m k v1 hlen w h with h2 | h2
    · exact Or.inl h2
    · exact Or.inr (by omega)
  have h2 := addRow_rowVal (addRow m k v1) k v2 i (by omega) hlen2
  rw [h2, h1]

theorem lookup_addlhsRow_self (m : SpMat) (r : ℕ) (cols : RowVec) :
    (addlhsRow m r cols).lookup r
      = some (addRowInto ((m.lookup r).getD []) cols) := by
  induction m with
  | nil => simp [addlhsRow, List.lookup]
  | cons p m ih =>
    by_cases h : p.1 = r
    · simp [addlhsRow, h, List.lookup]
    · have hbeq : (r == p.1) = false := beq_false_of_ne (fun hc => h hc.symm)
      simp [addlhsRow, h, List.lookup, hbeq, ih]

theorem addlhs_matVal (lhs : SpMat) (r c : ℕ) (v : Vec) (i : ℕ) (hi : i < v.length)
    (hlen : ∀ w, (((lhs.lookup r).getD []).lookup c) = some w →
      w = [] ∨ w.length = v.length) :
    matVal (addlhs lhs [(r, [(c, v)])]) r c i = matVal lhs r c i + v.getD i 0 := by
  show matVal (addlhsRow lhs r [(c, v)]) r c i = matVal lhs r c i + v.getD i 0
  unfold matVal
  rw [lookup_addlhsRow_self]
  simp only [Option.getD_some]
  show rowVal (addRow ((lhs.lookup r).getD []) c v) c i = _ + v.getD i 0
  rw [addRow_rowVal ((lhs.lookup r).getD []) c v i hi hlen]
  rfl

theorem addlhs_lookup_length (lhs : SpMat) (r c : ℕ) (v : Vec)
    (hlen : ∀ w, (((lhs.lookup r).getD []).lookup c) = some w →
      w = [] ∨ w.length = v.length) :
    ∀ w2, ((((addlhs lhs [(r, [(c, v)])]).lookup r).getD []).lookup c) = some w2 →
      w2 = [] ∨ w2.length = v.length := by
  intro w2 h2
  have : (addlhs lhs [(r, [(c, v)])]).lookup r
      = some (addRowInto ((lhs.lookup r).getD []) [(c, v)]) :=
    lookup_addlhsRow_self lhs r [(c, v)]
  rw [this] at h2
  simp only [Option.getD_some] at h2
  exact addRow_lookup_length ((lhs.lookup r).getD []) c v hlen w2 h2

theorem addlhs_twice_matVal (lhs : SpMat) (r c : ℕ) (v1 v2 : Vec) (i : ℕ)
    (hi : i < v1.length) (hl12 : v1.length = v2.length)
    (hlen : ∀ w, (((lhs.lookup r).getD []).lookup c) = some w →
      w = [] ∨ w.length = v1.length) :
    matVal (addlhs (addlhs lhs [(r, [(c, v1)])]) [(r, [(c, v2)])]) r c i
      = matVal lhs r c i + v1.getD i 0 + v2.getD i 0 := by
  have h1 := addlhs_matVal lhs r c v1 i hi hlen
  have hlen2 := addlhs_lookup_length lhs r c v1 hlen
  have hlen3 : ∀ w, (((addlhs lhs [(r, [(c, v1)])]).lookup r).getD []).lookup c
      = some w → w = [] ∨ w.length = v2.length := by
    intro w h
    rcases hlen2 w h with h2 | h2
    · exact Or.inl h2
    · exact Or.inr (by omega)
  have h2 := addlhs_matVal (addlhs lhs [(r, [(c, v1)])]) r c v2 i (by omega) hlen3
  rw [h2, h1]

theorem list_foldl_split (lower upper : ℕ) (div : List ((ℕ × ℕ) × ℤ))
    (upd : RowVec → ℕ → Vec → RowVec) :
    ∀ (items : List (ℕ × Vec)) (store : RowVec) (acc : List (ℤ × ℕ × Vec)),
      items.foldl
        (fun acc2 it =>
          if lower ≤ it.1 ∧ it.1 < upper then (upd acc2.1 it.1 it.2, acc2.2)
          else (acc2.1, acc2.2 ++ [(peOf div it.1, it.1, it.2)]))
        (store, acc) =
      (((items.filter (fun it => decide (lower ≤ it.1 ∧ it.1 < upper))).foldl
          (fun s it => upd s it.1 it.2) store),
       acc ++ (items.filter (fun it => !decide (lower ≤ it.1 ∧ it.1 < upper))).map
         (fun it => (peOf div it.1, it.1, it.2))) := by
  intro items
  induction items with
  | nil =>
    intro store acc
    simp
  | cons it items ih =>
    intro store acc
    by_cases h : lower ≤ it.1 ∧ it.1 < upper
    · simp only [List.foldl_cons, if_pos h, List.filter_cons, decide_eq_true h,
        Bool.not_true, if_true]
      rw [ih]
      simp [decide_eq_true h]
    · simp only [List.foldl_cons, if_neg h, List.filter_cons]
      rw [ih]
      simp [decide_eq_false h]

theorem peOf_no_match (gid : ℕ) :
    ∀ (l : List ((ℕ × ℕ) × ℤ)) (acc : ℤ),
      (∀ d ∈ l, ¬(d.1.1 ≤ gid ∧ gid < d.1.2)) →
      l.foldl (fun p2 d => if d.1.1 ≤ gid ∧ gid < d.1.2 then d.2 else p2) acc = acc := by
  intro l
  induction l with
  | nil => intro acc _; rfl
  | cons d t ih =>
    intro acc hall
    simp only [List.foldl_cons, if_neg (hall d (List.mem_cons_self d t))]
    exact ih acc (fun d2 h2 => hall d2 (List.mem_cons_of_mem d h2))

theorem peOf_unique_match (gid : ℕ) (p : ℤ) :
    ∀ (l : List ((ℕ × ℕ) × ℤ)) (acc : ℤ),
      (∀ d ∈ l, d.1.1 ≤ gid ∧ gid < d.1.2 → d.2 = p) →
      (∃ d ∈ l, d.1.1 ≤ gid ∧ gid < d.1.2) →
      l.foldl (fun p2 d => if d.1.1 ≤ gid ∧ gid < d.1.2 then d.2 else p2) acc = p := by
  intro l
  induction l with
  | nil =>
    intro acc _ hex
    simp at hex
  | cons d t ih =>
    intro acc hall hex
    by_cases hd : d.1.1 ≤ gid ∧ gid < d.1.2
    · simp only [List.foldl_cons, if_pos hd]
      rw [hall d (List.mem_cons_self d t) hd]
      by_cases ht : ∃ d2 ∈ t, d2.1.1 ≤ gid ∧ gid < d2.1.2
      · exact ih p (fun d2 h2 => hall d2 (List.mem_cons_of_mem d h2)) ht
      · have ht2 : ∀ d2 ∈ t, ¬(d2.1.1 ≤ gid ∧ gid < d2.1.2) := by
          intro d2 h2 hc
          exact ht ⟨d2, h2, hc⟩
        exact peOf_no_match gid t p ht2
    · simp only [List.foldl_cons, if_neg hd]
      have hex2 : ∃ d2 ∈ t, d2.1.1 ≤ gid ∧ gid < d2.1.2 := by
        rcases hex with ⟨d2, hmem, hm⟩
        rcases List.mem_cons.mp hmem with rfl | hmem2
        · exact absurd hm hd
        · exact ⟨d2, hmem2, hm⟩
      exact ih acc (fun d2 h2 => hall d2 (List.mem_cons_of_mem d h2)) hex2

/-- Claim C7: merge semantics of per-chare contributions. A contribution
batch is split: rows inside the local `[lower, upper)` update the local
store, every other row is exported exactly once, keyed by the PE owning
it per the division map; contributions to `rhs`, `lowrhs`, `lowlhs` and
`lhs` for the same row are summed across contributors; contributions to
`sol` overwrite, so contributing the same solution row twice is
idempotent. -/
theorem C7_merge_semantics (lower upper : ℕ) (div : List ((ℕ × ℕ) × ℤ))
    (sol rhs lowrhs lowlhs : RowVec) (lhs : SpMat)
    (items : List (ℕ × Vec)) (k r c : ℕ) (v v1 v2 : Vec) (i : ℕ)
    (l0 u0 : ℕ) (p : ℤ)
    (hi : i < v1.length) (hl12 : v1.length = v2.length) (hiv : i < v.length)
    (hrhslen : ∀ w, rhs.lookup k = some w → w = [] ∨ w.length = v1.length)
    (hlowrhslen : ∀ w, lowrhs.lookup k = some w → w = [] ∨ w.length = v1.length)
    (hlowlhslen : ∀ w, lowlhs.lookup k = some w → w = [] ∨ w.length = v1.length)
    (hlhslen : ∀ w, (((lhs.lookup r).getD []).lookup c) = some w →
      w = [] ∨ w.length = v1.length)
    (hdiv : ((l0, u0), p) ∈ div) (hgl : l0 ≤ k) (hgu : k < u0)
    (huniq : ∀ d ∈ div, d.1.1 ≤ k → k < d.1.2 → d = ((l0, u0), p)) :
    charesol lower upper div sol items =
      (addsol sol (items.filter (fun it => decide (lower ≤ it.1 ∧ it.1 < upper))),
       (items.filter (fun it => !decide (lower ≤ it.1 ∧ it.1 < upper))).map
         (fun it => (peOf div it.1, it.1, it.2))) ∧
    charerhs lower upper div rhs items =
      (addrhs rhs (items.filter (fun it => decide (lower ≤ it.1 ∧ it.1 < upper))),
       (items.filter (fun it => !decide (lower ≤ it.1 ∧ it.1 < upper))).map
         (fun it => (peOf div it.1, it.1, it.2))) ∧
    peOf div k = p ∧
    rowVal (addrhs (addrhs rhs [(k, v1)]) [(k, v2)]) k i
      = rowVal rhs k i + v1.getD i 0 + v2.getD i 0 ∧
    rowVal (addlowrhs (addlowrhs lowrhs [(k, v1)]) [(k, v2)]) k i
      = rowVal lowrhs k i + v1.getD i 0 + v2.getD i 0 ∧
    rowVal (addlowlhs (addlowlhs lowlhs [(k, v1)]) [(k, v2)]) k i
      = rowVal lowlhs k i + v1.getD i 0 + v2.getD i 0 ∧
    matVal (addlhs (addlhs lhs [(r, [(c, v1)])]) [(r, [(c, v2)])]) r c i
      = matVal lhs r c i + v1.getD i 0 + v2.getD i 0 ∧
    rowVal (addsol sol [(k, v)]) k i = v.getD i 0 ∧
    addsol (addsol sol [(k, v)]) [(k, v)] = addsol sol [(k, v)] := by
  refine ⟨?_, ?_, ?_, ?_, ?_, ?_, ?_, ?_, ?_⟩
  · unfold charesol addsol
    rw [list_foldl_split lower upper div setRow items sol []]
    simp
  · unfold charerhs addrhs
    rw [list_foldl_split lower upper div addRow items rhs []]
    simp
  · exact peOf_unique_match k p div (-1)
      (fun d hd h1 => congrArg Prod.snd (huniq d hd h1.1 h1.2))
      ⟨((l0, u0), p), hdiv, hgl, hgu⟩
  · exact addRow_twice_rowVal rhs k v1 v2 i hi hl12 hrhslen
  · exact addRow_twice_rowVal lowrhs k v1 v2 i hi hl12 hlowrhslen
  · exact addRow_twice_rowVal lowlhs k v1 v2 i hi hl12 hlowlhslen
  · exact addlhs_twice_matVal lhs r c v1 v2 i hi hl12 hlhslen
  · show rowVal (setRow sol k v) k i = v.getD i 0
    unfold rowVal
    rw [lookup_setRow_self]
    rfl
  · show setRow (setRow sol k v) k v = setRow sol k v
    exact setRow_setRow sol k v

/-- Concrete division map for the C7 witness: three PEs owning rows
`[0,2)`, `[2,4)`, `[4,6)`. -/
def divC7 : List ((ℕ × ℕ) × ℤ) := [((0, 2), 0), ((2, 4), 1), ((4, 6), 2)]

/-- Concrete contribution batch: row 2 is owned by the local PE (range
`[2,4)`), row 5 must be forwarded to PE 2. -/
def itemsC7 : List (ℕ × Vec) := [(2, [10]), (5, [20])]

/-- Witness for C7 on PE 1 (rows `[2,4)`) with empty initial stores. -/
theorem C7_merge_semantics_witness :
    (0 < ([(4 : ℚ)]).length ∧ ([(4 : ℚ)]).length = ([(6 : ℚ)]).length ∧
      0 < ([(9 : ℚ)]).length ∧ ((2, 4), (1 : ℤ)) ∈ divC7 ∧ 2 ≤ 2 ∧ 2 < 4) ∧
    (charesol 2 4 divC7 [] itemsC7 =
      (addsol [] (itemsC7.filter (fun it => decide (2 ≤ it.1 ∧ it.1 < 4))),
       (itemsC7.filter (fun it => !decide (2 ≤ it.1 ∧ it.1 < 4))).map
         (fun it => (peOf divC7 it.1, it.1, it.2))) ∧
    charerhs 2 4 divC7 [] itemsC7 =
      (addrhs [] (itemsC7.filter (fun it => decide (2 ≤ it.1 ∧ it.1 < 4))),
       (itemsC7.filter (fun it => !decide (2 ≤ it.1 ∧ it.1 < 4))).map
         (fun it => (peOf divC7 it.1, it.1, it.2))) ∧
    peOf divC7 2 = 1 ∧
    rowVal (addrhs (addrhs [] [(2, [4])]) [(2, [6])]) 2 0
      = rowVal [] 2 0 + ([(4 : ℚ)]).getD 0 0 + ([(6 : ℚ)]).getD 0 0 ∧
    rowVal (addlowrhs (addlowrhs [] [(2, [4])]) [(2, [6])]) 2 0
      = rowVal [] 2 0 + ([(4 : ℚ)]).getD 0 0 + ([(6 : ℚ)]).getD 0 0 ∧
    rowVal (addlowlhs (addlowlhs [] [(2, [4])]) [(2, [6])]) 2 0
      = rowVal [] 2 0 + ([(4 : ℚ)]).getD 0 0 + ([(6 : ℚ)]).getD 0 0 ∧
    matVal (addlhs (addlhs [] [(2, [(2, [4])])]) [(2, [(2, [6])])]) 2 2 0
      = matVal [] 2 2 0 + ([(4 : ℚ)]).getD 0 0 + ([(6 : ℚ)]).getD 0 0 ∧
    rowVal (addsol [] [(2, [9])]) 2 0 = ([(9 : ℚ)]).getD 0 0 ∧
    addsol (addsol [] [(2, [9])]) [(2, [9])] = addsol [] [(2, [9])]) :=
  ⟨⟨by decide, by decide, by decide, by decide, by decide, by decide⟩,
    C7_merge_semantics 2 4 divC7 [] [] [] [] [] itemsC7 2 2 2 [9] [4] [6] 0
      2 4
      (1 : ℤ) (by decide) (by decide) (by decide)
      (fun w h => by simp [List.lookup] at h)
      (fun w h => by simp [List.lookup] at h)
      (fun w h => by simp [List.lookup] at h)
      (fun w h => by simp [List.lookup] at h)
      (by decide) (by decide) (by decide) (by decide)⟩

/-! ### Claim C10: re-arming for the next time step -/

/-- The data members of `tk::Solver` involved in per-time-step assembly
(the Charm++ SDAG latches re-enabled by `enable_wait4rhs` are
control-flow state and sit outside this data model). -/
structure SolverState where
  rowimport : List (ℤ × List ℕ)
  solimport : List (ℤ × List ℕ)
  lhsimport : List (ℤ × List ℕ)
  rhsimport : List (ℤ × List ℕ)
  lowrhsimport : List (ℤ × List ℕ)
  lowlhsimport : List (ℤ × List ℕ)
  diagimport : List (ℤ × List ℕ)
  row : List ℕ
  sol : RowVec
  lhs : SpMat
  rhs : RowVec
  lowrhs : RowVec
  lowlhs : RowVec
  diag : List (ℕ × List Vec)
  hypreRows : List ℤ
  hypreRhs : List ℚ
  hypreSol : List ℚ
  lower : ℕ
  upper : ℕ
  div : List ((ℕ × ℕ) × ℤ)
  bc : BCMap

/-- `Solver::enable_wait4rhs`: clear the import maps and stored values of
the quantities rebuilt each time step — `m_rhsimport`, `m_lowrhsimport`,
`m_diagimport`, `m_rhs`, `m_bc`, `m_lowrhs`, `m_hypreRhs`, `m_diag` —
and leave every other member untouched. -/
def enable_wait4rhs (s : SolverState) : SolverState :=
  { s with
    rhsimport := []
    lowrhsimport := []
    diagimport := []
    rhs := []
    bc := []
    lowrhs := []
    hypreRhs := []
    diag := [] }

/-- Claim C10, amended: re-arming clears exactly the rhs, low-order rhs
and diagnostics import maps and values — and additionally the aggregated
Dirichlet BC map `m_bc`, omitted by the original claim — while the lhs
matrix with its BC rewrite, the low-order lhs, the row partitioning
(lower/upper and the division map), the row set and the
row/sol/lhs/low-order-lhs import maps are all retained. -/
theorem C10_rearm_frame (s : SolverState) :
    (enable_wait4rhs s).rhsimport = [] ∧
    (enable_wait4rhs s).lowrhsimport = [] ∧
    (enable_wait4rhs s).diagimport = [] ∧
    (enable_wait4rhs s).rhs = [] ∧
    (enable_wait4rhs s).bc = [] ∧
    (enable_wait4rhs s).lowrhs = [] ∧
    (enable_wait4rhs s).hypreRhs = [] ∧
    (enable_wait4rhs s).diag = [] ∧
    (enable_wait4rhs s).lhs = s.lhs ∧
    (enable_wait4rhs s).lowlhs = s.lowlhs ∧
    (enable_wait4rhs s).lower = s.lower ∧
    (enable_wait4rhs s).upper = s.upper ∧
    (enable_wait4rhs s).div = s.div ∧
    (enable_wait4rhs s).row = s.row ∧
    (enable_wait4rhs s).rowimport = s.rowimport ∧
    (enable_wait4rhs s).solimport = s.solimport ∧
    (enable_wait4rhs s).lhsimport = s.lhsimport ∧
    (enable_wait4rhs s).lowlhsimport = s.lowlhsimport ∧
    (enable_wait4rhs s).sol = s.sol ∧
    (enable_wait4rhs s).hypreRows = s.hypreRows ∧
    (enable_wait4rhs s).hypreSol = s.hypreSol := by
  refine ⟨rfl, rfl, rfl, rfl, rfl, rfl, rfl, rfl, rfl, rfl, rfl, rfl, rfl, rfl,
    rfl, rfl, rfl, rfl, rfl, rfl, rfl⟩

/-- A concrete solver state carrying a nonempty aggregated BC map. -/
def sC10 : SolverState :=
  ⟨[], [], [], [], [], [], [], [0], [], [], [], [], [], [], [], [], [], 0, 1, [],
    [(0, [(true, 5)])]⟩

/-- Claim C10 as stated is false on the code: `enable_wait4rhs` also
clears the aggregated Dirichlet BC map `m_bc`, which is none of the rhs,
low-order rhs or diagnostics state the claim allows to be cleared, so
"everything else" is not left unchanged. -/
theorem C10_counterexample : (enable_wait4rhs sC10).bc ≠ sC10.bc := by decide

/-! ### Claim C9: the over-decomposition check of `Partitioner::chareNodes` -/

/-- `nodes[che[e]].push_back(four nodes)`: append the four node ids of an
element to its chare's entry (creating the entry if absent, as
`std::unordered_map::operator[]` does). -/
def appendNodes : List (ℕ × List ℕ) → ℕ → List ℕ → List (ℕ × List ℕ)
  | [], c, ns => [(c, ns)]
  | p :: m, c, ns => if p.1 = c then (c, p.2 ++ ns) :: m else p :: appendNodes m c ns

/-- `Partitioner::chareNodes`: categorize the mesh node ids of the local
elements by the chare ids the partitioner assigned (`che`). -/
def chareNodes (tetinpoel : List ℕ) (che : List ℕ) : List (ℕ × List ℕ) :=
  (List.range che.length).foldl
    (fun m e => appendNodes m (che.getD e 0) (elemNodes4 tetinpoel e)) []

/-- The `ErrChk` over-decomposition test of `Partitioner::chareNodes`:
every entry of the constructed map must be nonempty. -/
def overdecompCheck (nodes : List (ℕ × List ℕ)) : Bool :=
  nodes.all (fun c => !c.2.isEmpty)

theorem appendNodes_all_nonempty (c : ℕ) (ns : List ℕ) (hns : ns ≠ []) :
    ∀ m : List (ℕ × List ℕ), m.all (fun p => !p.2.isEmpty) = true →
      (appendNodes m c ns).all (fun p => !p.2.isEmpty) = true := by
  intro m
  induction m with
  | nil =>
    intro _
    simp [appendNodes, hns]
  | cons p m ih =>
    intro hall
    simp only [List.all_cons, Bool.and_eq_true] at hall
    by_cases h : p.1 = c
    · simp only [appendNodes, h, if_true, List.all_cons, Bool.and_eq_true]
      refine ⟨?_, hall.2⟩
      simp only [Bool.not_eq_true']
      rcases ns with _ | ⟨x, t⟩
      · exact absurd rfl hns
      · cases p.2 <;> simp [List.isEmpty]
    · simp only [appendNodes, h, if_false, List.all_cons, Bool.and_eq_true]
      exact ⟨hall.1, ih hall.2⟩

/-- Concrete connectivity for the C9 failing input: two tetrahedra. -/
def connC9 : List ℕ := [0, 1, 2, 3, 1, 2, 3, 4]

/-- Concrete chare assignment for the C9 failing input: the two elements
go to chares 0 and 1; chare 2 (of `nchare = 3`) receives no element. -/
def cheC9 : List ℕ := [0, 1]

/-- Claim C9 is right and the code is wrong: the over-decomposition
`ErrChk` of `Partitioner::chareNodes` can never fire, because every entry
of the constructed chare-to-nodes map receives four node ids the moment
it is created — a chare with zero elements simply has no entry, so the
check passes on every input. In particular, for `nchare = 3` and two
elements, chare 2 has no elements, yet the check passes and no
`OverDecomposition` error is raised before worker creation. -/
theorem C9_overdecomposition_check :
    (∀ tetinpoel che : List ℕ, overdecompCheck (chareNodes tetinpoel che) = true) ∧
    overdecompCheck (chareNodes connC9 cheC9) = true ∧
    (chareNodes connC9 cheC9).lookup 2 = none ∧ 2 < 3 := by
  have hgen : ∀ tetinpoel che : List ℕ,
      overdecompCheck (chareNodes tetinpoel che) = true := by
    intro tetinpoel che
    unfold overdecompCheck chareNodes
    have hstep : ∀ (l : List ℕ) (m : List (ℕ × List ℕ)),
        m.all (fun p => !p.2.isEmpty) = true →
        (l.foldl (fun m e => appendNodes m (che.getD e 0) (elemNodes4 tetinpoel e))
          m).all (fun p => !p.2.isEmpty) = true := by
      intro l
      induction l with
      | nil => intro m hm; exact hm
      | cons e l ih =>
        intro m hm
        exact ih _ (appendNodes_all_nonempty (che.getD e 0)
          (elemNodes4 tetinpoel e) (by simp [elemNodes4]) m hm)
    exact hstep (List.range che.length) [] rfl
  exact ⟨hgen, hgen connC9 cheC9, by decide, by decide⟩
